import Mathlib

/-!
# Verification of the thrixi-resources registry

A shallow embedding of the `Resources` class from `src/resources.ts` together
with its extension table from `src/types.ts`.  Decoders (the `loaders` /
`threeLoaders` dispatch tables) are opaque backends: a `load` run is
parameterised by a decode oracle `Engine → ResourceType → String → Except Err Res`
and by the real-world completion order of the concurrently issued decodes
(a list of indices into the snapshot of declared entries).  The runtime is
single-threaded and cooperative, so each completion's mutation, lazy-callback
firing and progress report run atomically; the embedding processes the
completions sequentially in completion order.

Lazy promises from `getLazy` are modelled by fresh numeric ids; a promise
settles exactly when its id is fired by `emitLoaded`.  JS objects keyed by
strings are insertion-ordered with in-place overwrite, modelled by an
association list and `upsert`.  Percentages are rationals; the JS float
computation `(loaded / total) * 100` agrees with the rational one on every
property stated here (monotonicity, exact `100` at completion, `100` for an
empty registry).
-/

namespace Thrixi

instance {ε α : Type _} [DecidableEq ε] [DecidableEq α] : DecidableEq (Except ε α) :=
  fun x y =>
    match x, y with
    | .ok a, .ok b =>
        if h : a = b then .isTrue (by rw [h]) else .isFalse (by intro hh; cases hh; exact h rfl)
    | .error a, .error b =>
        if h : a = b then .isTrue (by rw [h]) else .isFalse (by intro hh; cases hh; exact h rfl)
    | .ok _, .error _ => .isFalse (by intro hh; cases hh)
    | .error _, .ok _ => .isFalse (by intro hh; cases hh)

/-- The resource kinds appearing as values of `extensionMap` in `src/types.ts`. -/
inductive ResourceType where
  | model
  | texture
  | environment
  | json
deriving DecidableEq, Repr

/-- The two decoder families (`Engine` in `src/types.ts`): `loaders` (pixi)
and `threeLoaders` (three). -/
inductive Engine where
  | pixi
  | three
deriving DecidableEq, Repr

/-- `extensionMap` from `src/types.ts`: file extension to resource kind. -/
def extensionMap (ext : String) : Option ResourceType :=
  if ext = "glb" then some .model
  else if ext = "gltf" then some .model
  else if ext = "png" then some .texture
  else if ext = "jpg" then some .texture
  else if ext = "jpeg" then some .texture
  else if ext = "webp" then some .texture
  else if ext = "hdr" then some .environment
  else if ext = "json" then some .json
  else none

/-- Index of the last occurrence of `c` in the character list, as in JS
`String.lastIndexOf` (`none` plays the role of `-1`). -/
def lastIdxOf (c : Char) : List Char → Option Nat
  | [] => none
  | x :: xs =>
    match lastIdxOf c xs with
    | some i => some (i + 1)
    | none => if x = c then some 0 else none

/-- JS `filename.lastIndexOf "."` as an integer (−1 when there is no dot). -/
def jsLastDot (filename : String) : Int :=
  match lastIdxOf '.' filename.data with
  | some i => (i : Int)
  | none => -1

/-- The `name` computed by `Resources.add`:
`dotIndex > 0 ? filename.substring(0, dotIndex) : filename`. -/
def jsName (filename : String) : String :=
  if 0 < jsLastDot filename then String.mk (filename.data.take (jsLastDot filename).toNat)
  else filename

/-- The extension computed by `Resources.add`:
`filename.substring(filename.lastIndexOf(".") + 1)`. -/
def jsExt (filename : String) : String :=
  String.mk (filename.data.drop (jsLastDot filename + 1).toNat)

/-- One declaration record (`ResourceEntry` in `src/types.ts`):
name, original filename, kind, engine, resolved path, optional decoded
resource, loaded flag. -/
structure ResourceEntry (Res : Type) where
  name : String
  filename : String
  type : ResourceType
  engine : Engine
  path : String
  resource : Option Res
  loaded : Bool
deriving Repr, DecidableEq

/-- The registry state of a `Resources` instance: normalized base path, the
insertion-ordered declaration map (JS object), the lazy-subscription map
(`events : Map<string, callback[]>`, callbacks modelled by ids), and the next
fresh promise id. -/
structure Resources (Res : Type) where
  basePath : String
  resources : List (ResourceEntry Res)
  events : List (String × List Nat)
  nextId : Nat
deriving Repr, DecidableEq

/-- Strip trailing slashes: `basePath.replace(/\/+$/, "")` in the constructor. -/
def stripTrailingSlashes (s : String) : String :=
  String.mk (((s.data.reverse).dropWhile (· = '/')).reverse)

/-- `new Resources(basePath)`. -/
def Resources.new (Res : Type) (basePath : String) : Resources Res :=
  { basePath := stripTrailingSlashes basePath, resources := [], events := [], nextId := 0 }

/-- JS object write `this.resources[name] = newEntry`: overwrite in place if
the key exists, else append. -/
def upsert {Res : Type} : List (ResourceEntry Res) → ResourceEntry Res → List (ResourceEntry Res)
  | [], e => [e]
  | x :: xs, e => if x.name = e.name then e :: xs else x :: upsert xs e

/-- `Resources.add` from `src/resources.ts`: derive name and extension from
the filename, look the extension up in `extensionMap` (throwing
`Unsupported file extension` when absent), and insert/overwrite the
declaration with a fresh unloaded entry. -/
def Resources.add {Res : Type} (r : Resources Res) (filename : String) (engine : Engine) :
    Except String (Resources Res) :=
  match extensionMap (jsExt filename) with
  | none => .error ("Unsupported file extension: ." ++ jsExt filename)
  | some ty =>
      .ok { r with
        resources := upsert r.resources
          { name := jsName filename, filename := filename, type := ty, engine := engine,
            path := r.basePath ++ "/" ++ filename, resource := none, loaded := false } }

/-- `get names()`: the declared names, in object-key order. -/
def Resources.names {Res : Type} (r : Resources Res) : List String :=
  r.resources.map (·.name)

/-- Object lookup `this.resources[name]`. -/
def Resources.findEntry {Res : Type} (r : Resources Res) (name : String) :
    Option (ResourceEntry Res) :=
  r.resources.find? (·.name == name)

/-- The message of the not-declared error thrown by `get` and `getLazy`. -/
def notFoundMsg (name : String) : String :=
  "Resource '" ++ name ++ "' not found. Did you add it to the resources?"

/-- The message of the not-loaded error thrown by `get`. -/
def notLoadedMsg (name : String) : String :=
  "Resource '" ++ name ++ "' not loaded yet. Call load() first."

/-- `Resources.get`: throw if undeclared, throw if not loaded (or no resource
stored), else return the stored resource. -/
def Resources.get {Res : Type} (r : Resources Res) (name : String) : Except String Res :=
  match r.findEntry name with
  | none => .error (notFoundMsg name)
  | some entry =>
      match entry.loaded, entry.resource with
      | true, some res => .ok res
      | _, _ => .error (notLoadedMsg name)

/-- Append a callback id under `name` in the events map (`onLoaded`). -/
def eventsAdd : List (String × List Nat) → String → Nat → List (String × List Nat)
  | [], name, id => [(name, [id])]
  | (n, l) :: rest, name, id =>
      if n = name then (n, l ++ [id]) :: rest else (n, l) :: eventsAdd rest name id

/-- Look a name up in the events map. -/
def eventsLookup (events : List (String × List Nat)) (name : String) : Option (List Nat) :=
  (events.find? (·.1 == name)).map (·.2)

/-- `emitLoaded`: take the listener list registered under `name` (empty if the
key is absent) and delete the key. -/
def eventsTake : List (String × List Nat) → String → List Nat × List (String × List Nat)
  | [], _ => ([], [])
  | (n, l) :: rest, name =>
      if n = name then (l, rest)
      else
        let p := eventsTake rest name
        (p.1, (n, l) :: p.2)

/-- The result of a `getLazy` call: an already-resolved promise wrapping a
resource, or a pending promise identified by a fresh id. -/
inductive LazyResult (Res : Type) where
  | resolved (res : Res)
  | pending (id : Nat)
deriving Repr, DecidableEq

/-- `Resources.getLazy`: throw if undeclared; if loaded with a stored resource,
return an immediately-resolved promise; otherwise register a one-shot callback
(a fresh promise id) under the entry's name. -/
def Resources.getLazy {Res : Type} (r : Resources Res) (name : String) :
    Except String (LazyResult Res × Resources Res) :=
  match r.findEntry name with
  | none => .error (notFoundMsg name)
  | some entry =>
      match entry.loaded, entry.resource with
      | true, some res => .ok (.resolved res, r)
      | _, _ =>
          .ok (.pending r.nextId,
            { r with events := eventsAdd r.events entry.name r.nextId,
                     nextId := r.nextId + 1 })

/-- The progress snapshot passed to `onProgress` (`LoadingProgress` in
`src/types.ts`): total, entries completed so far, percentage and the entry
that just completed. -/
structure LoadingProgress (Res : Type) where
  total : Nat
  loaded : Nat
  percentage : ℚ
  currentName : String
  currentResource : Res
deriving Repr, DecidableEq

/-- The rejection value built in `load`'s catch block:
`new Error("Failed to load resource '<filename>'", { cause: error })`. -/
structure LoadError (Err : Type) where
  message : String
  cause : Err
deriving Repr, DecidableEq

/-- What a successful decode completion did: stored this resource, fired these
lazy-callback ids (with that resource), and reported this progress snapshot. -/
structure StepSuccess (Res : Type) where
  resource : Res
  firedIds : List Nat
  progress : LoadingProgress Res
deriving Repr, DecidableEq

/-- An observation record of one decode completion during a `load` run. -/
structure StepRecord (Res Err : Type) where
  name : String
  filename : String
  path : String
  outcome : Except (LoadError Err) (StepSuccess Res)
deriving Repr, DecidableEq

/-- A decode oracle: what each backend's loader returns for a kind and path
(`loaderSet[entry.type].load(entry.path)` with
`loaderSet = engine === "three" ? threeLoaders : loaders`). -/
def Decode (Res Err : Type) : Type := Engine → ResourceType → String → Except Err Res

/-- One decode completion of the entry at index `i`.  On success the live entry
is overwritten with the fresh resource and marked loaded, `emitLoaded` fires
and clears the listeners under its name, the loaded counter is bumped, and a
progress snapshot is produced.  On failure nothing is mutated and the wrapped
error is recorded.  (An out-of-range index completes nothing.) -/
def loadStep {Res Err : Type} (decode : Decode Res Err) (st : Resources Res × Nat) (i : Nat) :
    (Resources Res × Nat) × Option (StepRecord Res Err) :=
  match st.1.resources[i]? with
  | none => (st, none)
  | some entry =>
      match decode entry.engine entry.type entry.path with
      | .error err =>
          (st, some { name := entry.name, filename := entry.filename, path := entry.path,
                      outcome := .error { message := "Failed to load resource '" ++ entry.filename ++ "'",
                                          cause := err } })
      | .ok res =>
          let r := st.1
          let total := r.resources.length
          let loaded := st.2 + 1
          let fired := eventsTake r.events entry.name
          let prog : LoadingProgress Res :=
            { total := total, loaded := loaded,
              percentage := if 0 < total then ((loaded : ℚ) / (total : ℚ)) * 100 else 100,
              currentName := entry.name, currentResource := res }
          (({ r with
                resources := r.resources.set i { entry with resource := some res, loaded := true },
                events := fired.2 },
            loaded),
           some { name := entry.name, filename := entry.filename, path := entry.path,
                  outcome := .ok { resource := res, firedIds := fired.1, progress := prog } })

/-- Process the decode completions in completion order, threading the registry
state and the loaded counter and collecting the observation records. -/
def loadGo {Res Err : Type} (decode : Decode Res Err) (st : Resources Res × Nat) :
    List Nat → (Resources Res × Nat) × List (StepRecord Res Err)
  | [] => (st, [])
  | i :: rest =>
      let p := loadStep decode st i
      let q := loadGo decode p.1 rest
      (q.1, p.2.toList ++ q.2)

/-- A `load()` run: snapshot the declared entries, let their decodes complete
in the given completion order, and return the final registry state together
with the record of each completion. -/
def Resources.load {Res Err : Type} (r : Resources Res) (decode : Decode Res Err)
    (order : List Nat) : Resources Res × List (StepRecord Res Err) :=
  let p := loadGo decode (r, 0) order
  (p.1.1, p.2)

/-- The settling of the aggregate `Promise.all`: the first rejection in
completion order wins; with no rejection, `load()` resolves with `undefined`. -/
def loadResult {Res Err : Type} : List (StepRecord Res Err) → Except (LoadError Err) Unit
  | [] => .ok ()
  | rec :: rest =>
      match rec.outcome with
      | .error e => .error e
      | .ok _ => loadResult rest

/-- The progress snapshots reported during a run, in callback order. -/
def progressLog {Res Err : Type} (records : List (StepRecord Res Err)) :
    List (LoadingProgress Res) :=
  records.filterMap (fun rec =>
    match rec.outcome with
    | .ok s => some s.progress
    | .error _ => none)

/-- Every lazy-promise settlement of a run: the promise id and the resource it
was resolved with. -/
def flatFired {Res Err : Type} (records : List (StepRecord Res Err)) : List (Nat × Res) :=
  records.flatMap (fun rec =>
    match rec.outcome with
    | .ok s => s.firedIds.map (fun id => (id, s.resource))
    | .error _ => [])

/-- `get isLoaded()`: every declared entry is loaded. -/
def Resources.isLoaded {Res : Type} (r : Resources Res) : Bool :=
  r.resources.all (·.loaded)

/-- The snapshot returned by `get progress()` in `src/resources.ts`. -/
structure ProgressInfo where
  total : Nat
  loaded : Nat
  percentage : ℚ
deriving Repr, DecidableEq

/-- `get progress()`: count declared and loaded entries and compute
`total > 0 ? (loaded / total) * 100 : 100`. -/
def Resources.progress {Res : Type} (r : Resources Res) : ProgressInfo :=
  let total := r.resources.length
  let loaded := (r.resources.filter (·.loaded)).length
  { total := total, loaded := loaded,
    percentage := if 0 < total then ((loaded : ℚ) / (total : ℚ)) * 100 else 100 }

/-- The spec's formula for the `progress` getter (§4.3): `total` is the number
of declared entries, `loaded` the number of entries in the loaded state, and
`percentage = loaded/total*100`, defined as `100` when `total` is `0`. -/
def progressSpec {Res : Type} (r : Resources Res) : ProgressInfo :=
  { total := r.resources.length,
    loaded := r.resources.countP (·.loaded),
    percentage :=
      if r.resources.length = 0 then 100
      else ((r.resources.countP (·.loaded) : ℚ) / (r.resources.length : ℚ)) * 100 }

/-- A completion order is a scheduling of exactly the snapshot's `n` decode
tasks: distinct indices, all in range, one per declared entry. -/
def ValidOrder (order : List Nat) (n : Nat) : Prop :=
  order.Nodup ∧ order.length = n ∧ ∀ i ∈ order, i < n

instance : ∀ (order : List Nat) (n : Nat), Decidable (ValidOrder order n) := by
  intro order n
  unfold ValidOrder
  infer_instance

/-- Registry well-formedness, maintained by the API: declared names are unique
(they key a JS object), the subscription map's keys are unique (it is a JS
`Map`), each promise id is registered at most once (each `getLazy` call makes
a fresh callback), and every registered callback id is below the fresh-id
counter. -/
def Resources.WF {Res : Type} (r : Resources Res) : Prop :=
  (r.resources.map (·.name)).Nodup ∧ ((r.events.map (·.1)).Nodup) ∧
    ((r.events.flatMap (·.2)).Nodup) ∧
    ∀ p ∈ r.events, ∀ id ∈ p.2, id < r.nextId

instance {Res : Type} : ∀ (r : Resources Res), Decidable r.WF := by
  intro r
  unfold Resources.WF
  infer_instance

/-- The immutable part of a declaration: everything `load` reads but never
writes (only `resource` and `loaded` change during a run). -/
def ResourceEntry.skel {Res : Type} (e : ResourceEntry Res) :
    String × String × String × Engine × ResourceType :=
  (e.name, e.filename, e.path, e.engine, e.type)

/-- `k` back-to-back `getLazy` calls for the same name (concurrent lazy
requests issued before `load`), collecting the pending promise ids. -/
def getLazyN {Res : Type} (r : Resources Res) (nm : String) : Nat → List Nat × Resources Res
  | 0 => ([], r)
  | k + 1 =>
      match r.getLazy nm with
      | .ok (.pending id, r') =>
          let p := getLazyN r' nm k
          (id :: p.1, p.2)
      | _ => ([], r)

/-- Every decode scheduled by the completion order succeeds. -/
def AllOk {Res Err : Type} (decode : Decode Res Err) (r : Resources Res)
    (order : List Nat) : Prop :=
  ∀ i ∈ order, ∀ e, r.resources[i]? = some e →
    ∃ res, decode e.engine e.type e.path = .ok res

/-- A one-declaration registry (`new Resources("b").add("a.png")`) used to
instantiate the theorems at concrete inputs. -/
def sampleRegistry : Resources Nat :=
  match (Resources.new Nat "b").add "a.png" Engine.pixi with
  | .ok r => r
  | .error _ => Resources.new Nat "b"

/-- A decode oracle that fails on every path. -/
def failDecode : Decode Nat Nat := fun _ _ _ => .error 0

/-- A decode oracle that succeeds with `7` on every path. -/
def okDecode : Decode Nat Nat := fun _ _ _ => .ok 7

/-- `sampleRegistry` after re-declaring the base name `a` via `a.jpg` with the
three backend. -/
def sampleOverwritten : Resources Nat :=
  match sampleRegistry.add "a.jpg" Engine.three with
  | .ok r => r
  | .error _ => sampleRegistry

/-- `sampleRegistry` after a fully successful `load()` run. -/
def sampleLoaded : Resources Nat := (sampleRegistry.load okDecode [0]).1

/-- `sampleRegistry` with one pending lazy subscription for `a`. -/
def sampleSubscribed : Resources Nat :=
  match sampleRegistry.getLazy "a" with
  | .ok (_, r) => r
  | .error _ => sampleRegistry

/-- A two-declaration registry: `a.png` (pixi) and `m.glb` (three). -/
def sampleTwo : Resources Nat :=
  match (Resources.new Nat "b").add "a.png" Engine.pixi with
  | .ok r =>
      match r.add "m.glb" Engine.three with
      | .ok r2 => r2
      | .error _ => r
  | .error _ => Resources.new Nat "b"

/-- A decode oracle that rejects exactly the path `b/a.png`. -/
def mixedDecode : Decode Nat Nat := fun _ _ p =>
  if p = "b/a.png" then .error 5 else .ok 9

/-- First record of a run (scenario accessor for concrete instantiations). -/
def firstRecord (l : List (StepRecord Nat Nat)) : StepRecord Nat Nat :=
  l.headD { name := "", filename := "", path := "",
            outcome := .error { message := "", cause := 0 } }

/-! ## Basic lemmas about the registry map and the events map -/

theorem upsert_map_name {Res : Type} (l : List (ResourceEntry Res)) (e : ResourceEntry Res) :
    (upsert l e).map (·.name) =
      if e.name ∈ l.map (·.name) then l.map (·.name) else l.map (·.name) ++ [e.name] := by
  induction l with
  | nil => simp [upsert]
  | cons x xs ih =>
      by_cases hx : x.name = e.name
      · simp [upsert, hx]
      · simp only [upsert, hx, if_false, List.map_cons, List.mem_cons]
        rw [ih]
        by_cases hm : e.name ∈ xs.map (·.name)
        · simp [hm, Ne.symm hx]
        · simp [hm, Ne.symm hx]

theorem upsert_nodup {Res : Type} (l : List (ResourceEntry Res)) (e : ResourceEntry Res)
    (h : (l.map (·.name)).Nodup) : ((upsert l e).map (·.name)).Nodup := by
  rw [upsert_map_name]
  by_cases hm : e.name ∈ l.map (·.name)
  · simpa [hm] using h
  · simp only [hm, if_false]
    exact List.Nodup.append h (List.nodup_singleton _) (by simpa using hm)

theorem find?_upsert {Res : Type} (l : List (ResourceEntry Res)) (e : ResourceEntry Res) :
    (upsert l e).find? (·.name == e.name) = some e := by
  induction l with
  | nil => simp [upsert]
  | cons x xs ih =>
      by_cases hx : x.name = e.name
      · simp [upsert, hx]
      · simp only [upsert, hx, if_false]
        rw [List.find?_cons_of_neg _ (by simpa using hx)]
        exact ih

theorem count_upsert_name {Res : Type} (l : List (ResourceEntry Res)) (e : ResourceEntry Res)
    (h : (l.map (·.name)).Nodup) : ((upsert l e).map (·.name)).count e.name = 1 :=
  List.count_eq_one_of_mem (upsert_nodup l e h) (by
    rw [upsert_map_name]
    by_cases hm : e.name ∈ l.map (·.name) <;> simp [hm])

theorem mem_upsert {Res : Type} {l : List (ResourceEntry Res)} {e x : ResourceEntry Res}
    (hx : x ∈ upsert l e) : x ∈ l ∨ x = e := by
  induction l with
  | nil => simpa [upsert] using hx
  | cons y ys ih =>
      by_cases hy : y.name = e.name
      · simp only [upsert, hy, if_true] at hx
        rcases List.mem_cons.mp hx with h | h
        · exact .inr h
        · exact .inl (List.mem_cons_of_mem _ h)
      · simp only [upsert, hy, if_false] at hx
        rcases List.mem_cons.mp hx with h | h
        · exact .inl (h ▸ List.mem_cons_self _ _)
        · rcases ih h with h' | h'
          · exact .inl (List.mem_cons_of_mem _ h')
          · exact .inr h'

theorem eventsLookup_eventsAdd_self (ev : List (String × List Nat)) (nm : String) (id : Nat) :
    eventsLookup (eventsAdd ev nm id) nm = some ((eventsLookup ev nm).getD [] ++ [id]) := by
  induction ev with
  | nil => simp [eventsAdd, eventsLookup]
  | cons p rest ih =>
      by_cases hp : p.1 = nm
      · simp [eventsAdd, eventsLookup, hp]
      · simp only [eventsAdd, hp, if_false]
        simpa [eventsLookup, List.find?_cons_of_neg, hp] using ih

theorem eventsLookup_eventsAdd_ne (ev : List (String × List Nat)) (nm m : String) (id : Nat)
    (h : m ≠ nm) : eventsLookup (eventsAdd ev nm id) m = eventsLookup ev m := by
  induction ev with
  | nil => simp [eventsAdd, eventsLookup, List.find?_cons_of_neg, Ne.symm h]
  | cons p rest ih =>
      by_cases hp : p.1 = nm
      · have hpm : ¬p.1 = m := fun h' => h (h' ▸ hp)
        simp only [eventsAdd, hp, if_true]
        simp only [eventsLookup]
        rw [List.find?_cons_of_neg _ (by simpa using Ne.symm h),
          List.find?_cons_of_neg _ (by simpa using hpm)]
      · simp only [eventsAdd, hp, if_false]
        by_cases hm : p.1 = m
        · simp [eventsLookup, hm]
        · simpa [eventsLookup, List.find?_cons_of_neg, hm] using ih

theorem eventsAdd_keys (ev : List (String × List Nat)) (nm : String) (id : Nat) :
    (eventsAdd ev nm id).map (·.1) =
      if nm ∈ ev.map (·.1) then ev.map (·.1) else ev.map (·.1) ++ [nm] := by
  induction ev with
  | nil => simp [eventsAdd]
  | cons p rest ih =>
      by_cases hp : p.1 = nm
      · simp [eventsAdd, hp]
      · simp only [eventsAdd, hp, if_false, List.map_cons, List.mem_cons]
        rw [ih]
        by_cases hm : nm ∈ rest.map (·.1)
        · simp [hm, Ne.symm hp]
        · simp [hm, Ne.symm hp]

theorem eventsAdd_keys_nodup (ev : List (String × List Nat)) (nm : String) (id : Nat)
    (h : (ev.map (·.1)).Nodup) : ((eventsAdd ev nm id).map (·.1)).Nodup := by
  rw [eventsAdd_keys]
  by_cases hm : nm ∈ ev.map (·.1)
  · simpa [hm] using h
  · simp only [hm, if_false]
    exact List.Nodup.append h (List.nodup_singleton _) (by simpa using hm)

theorem mem_eventsAdd (ev : List (String × List Nat)) (nm : String) (id : Nat) {p}
    (hp : p ∈ eventsAdd ev nm id) :
    (∀ j ∈ p.2, (∃ q ∈ ev, j ∈ q.2) ∨ j = id) := by
  induction ev with
  | nil =>
      intro j hj
      simp only [eventsAdd, List.mem_singleton] at hp
      subst hp
      simp only [List.mem_singleton] at hj
      exact .inr hj
  | cons q rest ih =>
      by_cases hq : q.1 = nm
      · simp only [eventsAdd, hq, if_true, List.mem_cons] at hp
        rcases hp with h | h
        · intro j hj
          subst h
          rcases List.mem_append.mp hj with h' | h'
          · exact .inl ⟨q, List.mem_cons_self _ _, h'⟩
          · exact .inr (by simpa using h')
        · intro j hj
          exact .inl ⟨p, List.mem_cons_of_mem _ h, hj⟩
      · simp only [eventsAdd, hq, if_false, List.mem_cons] at hp
        rcases hp with h | h
        · intro j hj
          exact .inl ⟨p, h ▸ List.mem_cons_self _ _, hj⟩
        · intro j hj
          rcases ih h j hj with h' | h'
          · rcases h' with ⟨q', hq', hjq⟩
            exact .inl ⟨q', List.mem_cons_of_mem _ hq', hjq⟩
          · exact .inr h'

theorem eventsTake_fst (ev : List (String × List Nat)) (nm : String) :
    (eventsTake ev nm).1 = (eventsLookup ev nm).getD [] := by
  induction ev with
  | nil => simp [eventsTake, eventsLookup]
  | cons p rest ih =>
      by_cases hp : p.1 = nm
      · simp [eventsTake, eventsLookup, hp]
      · simpa [eventsTake, eventsLookup, hp, List.find?_cons_of_neg] using ih

theorem eventsLookup_eventsTake_self (ev : List (String × List Nat)) (nm : String)
    (h : (ev.map (·.1)).Nodup) : eventsLookup (eventsTake ev nm).2 nm = none := by
  induction ev with
  | nil => simp [eventsTake, eventsLookup]
  | cons p rest ih =>
      simp only [List.map_cons, List.nodup_cons] at h
      by_cases hp : p.1 = nm
      · simp only [eventsTake, hp, if_true]
        subst hp
        simp only [eventsLookup]
        rw [List.find?_eq_none.mpr]
        · rfl
        · intro q hq
          simp only [beq_iff_eq]
          intro hqe
          exact h.1 (hqe ▸ List.mem_map_of_mem (·.1) hq)
      · simp only [eventsTake, hp, if_false]
        simpa [eventsLookup, List.find?_cons_of_neg, hp] using ih h.2

theorem eventsLookup_eventsTake_ne (ev : List (String × List Nat)) (nm m : String)
    (h : m ≠ nm) : eventsLookup (eventsTake ev nm).2 m = eventsLookup ev m := by
  induction ev with
  | nil => simp [eventsTake]
  | cons p rest ih =>
      by_cases hp : p.1 = nm
      · simp only [eventsTake, hp, if_true]
        simp [eventsLookup, List.find?_cons_of_neg, hp ▸ (Ne.symm h)]
      · simp only [eventsTake, hp, if_false]
        by_cases hm : p.1 = m
        · simp [eventsLookup, hm]
        · simpa [eventsLookup, List.find?_cons_of_neg, hm] using ih

theorem eventsTake_keys_sublist (ev : List (String × List Nat)) (nm : String) :
    ((eventsTake ev nm).2.map (·.1)).Sublist (ev.map (·.1)) := by
  induction ev with
  | nil => simp [eventsTake]
  | cons p rest ih =>
      by_cases hp : p.1 = nm
      · simp only [eventsTake, hp, if_true, List.map_cons]
        exact (List.sublist_cons_self _ _)
      · simp only [eventsTake, hp, if_false, List.map_cons]
        exact ih.cons₂ _

theorem eventsTake_keys_nodup (ev : List (String × List Nat)) (nm : String)
    (h : (ev.map (·.1)).Nodup) : ((eventsTake ev nm).2.map (·.1)).Nodup :=
  (eventsTake_keys_sublist ev nm).nodup h

theorem mem_eventsTake (ev : List (String × List Nat)) (nm : String) {p}
    (hp : p ∈ (eventsTake ev nm).2) : p ∈ ev := by
  induction ev with
  | nil => simp [eventsTake] at hp
  | cons q rest ih =>
      by_cases hq : q.1 = nm
      · simp only [eventsTake, hq, if_true] at hp
        exact List.mem_cons_of_mem _ hp
      · simp only [eventsTake, hq, if_false, List.mem_cons] at hp
        rcases hp with h | h
        · exact h ▸ List.mem_cons_self _ _
        · exact List.mem_cons_of_mem _ (ih h)

/-! ## Load-step case lemmas -/

theorem loadStep_none {Res Err : Type} (decode : Decode Res Err) (st : Resources Res × Nat)
    (i : Nat) (h : st.1.resources[i]? = none) : loadStep decode st i = (st, none) := by
  simp [loadStep, h]

theorem loadStep_error {Res Err : Type} (decode : Decode Res Err) (st : Resources Res × Nat)
    (i : Nat) (e : ResourceEntry Res) (err : Err) (h : st.1.resources[i]? = some e)
    (hd : decode e.engine e.type e.path = .error err) :
    loadStep decode st i =
      (st, some { name := e.name, filename := e.filename, path := e.path,
                  outcome := .error { message := "Failed to load resource '" ++ e.filename ++ "'",
                                      cause := err } }) := by
  simp [loadStep, h, hd]

theorem loadStep_ok {Res Err : Type} (decode : Decode Res Err) (st : Resources Res × Nat)
    (i : Nat) (e : ResourceEntry Res) (res : Res) (h : st.1.resources[i]? = some e)
    (hd : decode e.engine e.type e.path = .ok res) :
    loadStep decode st i =
      (({ st.1 with
            resources := st.1.resources.set i { e with resource := some res, loaded := true },
            events := (eventsTake st.1.events e.name).2 },
         st.2 + 1),
       some { name := e.name, filename := e.filename, path := e.path,
              outcome := .ok { resource := res,
                               firedIds := (eventsTake st.1.events e.name).1,
                               progress :=
                                 { total := st.1.resources.length, loaded := st.2 + 1,
                                   percentage :=
                                     if 0 < st.1.resources.length then
                                       ((st.2 + 1 : ℚ) / (st.1.resources.length : ℚ)) * 100
                                     else 100,
                                   currentName := e.name, currentResource := res } } }) := by
  simp [loadStep, h, hd]

theorem loadStep_length {Res Err : Type} (decode : Decode Res Err) (st : Resources Res × Nat)
    (i : Nat) : ((loadStep decode st i).1.1.resources).length = st.1.resources.length := by
  cases h : st.1.resources[i]? with
  | none => rw [loadStep_none decode st i h]
  | some e =>
      cases hd : decode e.engine e.type e.path with
      | error err => rw [loadStep_error decode st i e err h hd]
      | ok res => rw [loadStep_ok decode st i e res h hd]; simp

theorem loadStep_skel {Res Err : Type} (decode : Decode Res Err) (st : Resources Res × Nat)
    (i j : Nat) :
    ((loadStep decode st i).1.1.resources[j]?).map (·.skel) =
      (st.1.resources[j]?).map (·.skel) := by
  cases h : st.1.resources[i]? with
  | none => rw [loadStep_none decode st i h]
  | some e =>
      cases hd : decode e.engine e.type e.path with
      | error err => rw [loadStep_error decode st i e err h hd]
      | ok res =>
          rw [loadStep_ok decode st i e res h hd]
          by_cases hij : i = j
          · subst hij
            have hlt : i < st.1.resources.length := (List.getElem?_eq_some_iff.mp h).1
            simp only [List.getElem?_set_self hlt, h, Option.map_some]
            rfl
          · simp [List.getElem?_set_ne hij]

theorem loadStep_getElem_ne {Res Err : Type} (decode : Decode Res Err)
    (st : Resources Res × Nat) (i j : Nat) (hij : i ≠ j) :
    (loadStep decode st i).1.1.resources[j]? = st.1.resources[j]? := by
  cases h : st.1.resources[i]? with
  | none => rw [loadStep_none decode st i h]
  | some e =>
      cases hd : decode e.engine e.type e.path with
      | error err => rw [loadStep_error decode st i e err h hd]
      | ok res => rw [loadStep_ok decode st i e res h hd]; simp [List.getElem?_set_ne hij]

theorem loadStep_basePath {Res Err : Type} (decode : Decode Res Err) (st : Resources Res × Nat)
    (i : Nat) : (loadStep decode st i).1.1.basePath = st.1.basePath := by
  cases h : st.1.resources[i]? with
  | none => rw [loadStep_none decode st i h]
  | some e =>
      cases hd : decode e.engine e.type e.path with
      | error err => rw [loadStep_error decode st i e err h hd]
      | ok res => rw [loadStep_ok decode st i e res h hd]

theorem loadStep_nextId {Res Err : Type} (decode : Decode Res Err) (st : Resources Res × Nat)
    (i : Nat) : (loadStep decode st i).1.1.nextId = st.1.nextId := by
  cases h : st.1.resources[i]? with
  | none => rw [loadStep_none decode st i h]
  | some e =>
      cases hd : decode e.engine e.type e.path with
      | error err => rw [loadStep_error decode st i e err h hd]
      | ok res => rw [loadStep_ok decode st i e res h hd]

theorem loadGo_cons {Res Err : Type} (decode : Decode Res Err) (st : Resources Res × Nat)
    (i : Nat) (rest : List Nat) :
    loadGo decode st (i :: rest) =
      ((loadGo decode (loadStep decode st i).1 rest).1,
        (loadStep decode st i).2.toList ++ (loadGo decode (loadStep decode st i).1 rest).2) := by
  rfl

theorem loadGo_length {Res Err : Type} (decode : Decode Res Err) (st : Resources Res × Nat)
    (order : List Nat) :
    ((loadGo decode st order).1.1.resources).length = st.1.resources.length := by
  induction order generalizing st with
  | nil => rfl
  | cons i rest ih => rw [loadGo_cons]; exact (ih _).trans (loadStep_length decode st i)

theorem loadGo_skel {Res Err : Type} (decode : Decode Res Err) (st : Resources Res × Nat)
    (order : List Nat) (j : Nat) :
    ((loadGo decode st order).1.1.resources[j]?).map (·.skel) =
      (st.1.resources[j]?).map (·.skel) := by
  induction order generalizing st with
  | nil => rfl
  | cons i rest ih => rw [loadGo_cons]; exact (ih _).trans (loadStep_skel decode st i j)

theorem loadGo_basePath {Res Err : Type} (decode : Decode Res Err) (st : Resources Res × Nat)
    (order : List Nat) : (loadGo decode st order).1.1.basePath = st.1.basePath := by
  induction order generalizing st with
  | nil => rfl
  | cons i rest ih => rw [loadGo_cons]; exact (ih _).trans (loadStep_basePath decode st i)

theorem loadGo_nextId {Res Err : Type} (decode : Decode Res Err) (st : Resources Res × Nat)
    (order : List Nat) : (loadGo decode st order).1.1.nextId = st.1.nextId := by
  induction order generalizing st with
  | nil => rfl
  | cons i rest ih => rw [loadGo_cons]; exact (ih _).trans (loadStep_nextId decode st i)

theorem set_getElem?_self {α : Type _} {l : List α} {i : Nat} {a : α} (h : l[i]? = some a) :
    l.set i a = l := by
  apply List.ext_getElem?
  intro n
  by_cases hn : i = n
  · subst hn
    rw [List.getElem?_set_self (List.getElem?_eq_some_iff.mp h).1, h]
  · rw [List.getElem?_set_ne hn]

theorem name_ne_of_nodup {Res : Type} {l : List (ResourceEntry Res)}
    (h : (l.map (·.name)).Nodup) {i j : Nat} {e e' : ResourceEntry Res}
    (hi : l[i]? = some e) (hj : l[j]? = some e') (hij : i ≠ j) : e.name ≠ e'.name := by
  intro hname
  have hilt : i < l.length := (List.getElem?_eq_some_iff.mp hi).1
  have hjlt : j < l.length := (List.getElem?_eq_some_iff.mp hj).1
  have hmi : (l.map (·.name))[i]? = some e.name := by
    rw [List.getElem?_map, hi]; rfl
  have hmj : (l.map (·.name))[j]? = some e'.name := by
    rw [List.getElem?_map, hj]; rfl
  rcases Nat.lt_or_ge i j with hlt | hge
  · exact List.nodup_iff_getElem?_ne_getElem?.mp h i j hlt (by simpa using hjlt)
      (by rw [hmi, hmj, hname])
  · have hlt : j < i := Nat.lt_of_le_of_ne hge (Ne.symm hij)
    exact List.nodup_iff_getElem?_ne_getElem?.mp h j i hlt (by simpa using hilt)
      (by rw [hmi, hmj, hname])

theorem loadStep_map_name {Res Err : Type} (decode : Decode Res Err) (st : Resources Res × Nat)
    (i : Nat) :
    ((loadStep decode st i).1.1.resources).map (·.name) = (st.1.resources).map (·.name) := by
  cases h : st.1.resources[i]? with
  | none => rw [loadStep_none decode st i h]
  | some e =>
      cases hd : decode e.engine e.type e.path with
      | error err => rw [loadStep_error decode st i e err h hd]
      | ok res =>
          rw [loadStep_ok decode st i e res h hd]
          show (st.1.resources.set i _).map (·.name) = _
          rw [List.map_set]
          exact set_getElem?_self (by rw [List.getElem?_map, h]; rfl)

theorem loadStep_keys_nodup {Res Err : Type} (decode : Decode Res Err) (st : Resources Res × Nat)
    (i : Nat) (h : (st.1.events.map (·.1)).Nodup) :
    (((loadStep decode st i).1.1.events).map (·.1)).Nodup := by
  cases he : st.1.resources[i]? with
  | none => rw [loadStep_none decode st i he]; exact h
  | some e =>
      cases hd : decode e.engine e.type e.path with
      | error err => rw [loadStep_error decode st i e err he hd]; exact h
      | ok res =>
          rw [loadStep_ok decode st i e res he hd]
          exact eventsTake_keys_nodup _ _ h

/-- The final value of each entry after a run with distinct completion
indices: updated with the fresh decode result when scheduled and the decode
succeeds, untouched otherwise. -/
theorem loadGo_getElem_final {Res Err : Type} (decode : Decode Res Err) :
    ∀ (order : List Nat) (st : Resources Res × Nat), order.Nodup →
      ∀ (i : Nat) (e : ResourceEntry Res), st.1.resources[i]? = some e →
        (loadGo decode st order).1.1.resources[i]? =
          if i ∈ order then
            match decode e.engine e.type e.path with
            | .ok res => some { e with resource := some res, loaded := true }
            | .error _ => some e
          else some e
  | [], st, _, i, e, h => by simpa using h
  | j :: rest, st, hnd, i, e, h => by
      have hnd' : rest.Nodup := (List.nodup_cons.mp hnd).2
      have hj : j ∉ rest := (List.nodup_cons.mp hnd).1
      rw [loadGo_cons]
      by_cases hij : j = i
      · subst hij
        cases hd : decode e.engine e.type e.path with
        | ok res =>
            have hstep := loadStep_ok decode st j e res h hd
            have hlt : j < st.1.resources.length := (List.getElem?_eq_some_iff.mp h).1
            have h' : (loadStep decode st j).1.1.resources[j]? =
                some { e with resource := some res, loaded := true } := by
              rw [hstep]; exact List.getElem?_set_self hlt
            rw [loadGo_getElem_final decode rest _ hnd' j _ h']
            simp [hj, hd]
        | error err =>
            have hstep := loadStep_error decode st j e err h hd
            have h' : (loadStep decode st j).1.1.resources[j]? = some e := by rw [hstep]; exact h
            rw [loadGo_getElem_final decode rest _ hnd' j _ h']
            simp [hj, hd]
      · have h' : (loadStep decode st j).1.1.resources[i]? = some e :=
          (loadStep_getElem_ne decode st j i hij).trans h
        rw [loadGo_getElem_final decode rest _ hnd' i _ h']
        have : ¬i = j := fun hh => hij hh.symm
        simp [List.mem_cons, this]

/-- Characterization of every observation record of a run: it belongs to a
scheduled entry of the snapshot, carries that entry's name/filename/path, and
on success fired exactly the callbacks registered under that name at the start
of the run, with the entry's own decode result. -/
theorem loadGo_records_char {Res Err : Type} (decode : Decode Res Err) :
    ∀ (order : List Nat) (st : Resources Res × Nat), order.Nodup →
      ((st.1.resources.map (·.name)).Nodup) → ((st.1.events.map (·.1)).Nodup) →
      ∀ rec ∈ (loadGo decode st order).2,
        ∃ i ∈ order, ∃ e : ResourceEntry Res, st.1.resources[i]? = some e ∧
          rec.name = e.name ∧ rec.filename = e.filename ∧ rec.path = e.path ∧
          (∀ s, rec.outcome = .ok s →
              s.firedIds = (eventsLookup st.1.events e.name).getD [] ∧
              decode e.engine e.type e.path = .ok s.resource) ∧
          (∀ le, rec.outcome = .error le →
              ∃ err, decode e.engine e.type e.path = .error err ∧
                le = { message := "Failed to load resource '" ++ e.filename ++ "'",
                       cause := err })
  | [], st, _, _, _, rec, hrec => by simp [loadGo] at hrec
  | j :: rest, st, hnd, hnames, hkeys, rec, hrec => by
      have hnd' : rest.Nodup := (List.nodup_cons.mp hnd).2
      have hjr : j ∉ rest := (List.nodup_cons.mp hnd).1
      rw [loadGo_cons] at hrec
      have hnames' := (loadStep_map_name decode st j).symm ▸ hnames
      have hkeys' := loadStep_keys_nodup decode st j hkeys
      rcases List.mem_append.mp hrec with hhead | htail
      · -- the record of the head completion
        cases he : st.1.resources[j]? with
        | none => rw [loadStep_none decode st j he] at hhead; simp at hhead
        | some e =>
            cases hd : decode e.engine e.type e.path with
            | error err =>
                rw [loadStep_error decode st j e err he hd] at hhead
                simp only [Option.toList_some, List.mem_singleton] at hhead
                subst hhead
                exact ⟨j, List.mem_cons_self _ _, e, he, rfl, rfl, rfl,
                  fun s hs => by simp at hs,
                  fun le hle => ⟨err, hd, by simpa using hle.symm⟩⟩
            | ok res =>
                rw [loadStep_ok decode st j e res he hd] at hhead
                simp only [Option.toList_some, List.mem_singleton] at hhead
                subst hhead
                refine ⟨j, List.mem_cons_self _ _, e, he, rfl, rfl, rfl, fun s hs => ?_,
                  fun le hle => by simp at hle⟩
                injection hs with hseq
                subst hseq
                exact ⟨eventsTake_fst _ _, hd⟩
      · -- a record of the tail of the run
        rcases loadGo_records_char decode rest _ hnd' hnames' hkeys' rec htail with
          ⟨i, hi, e', he', hn, hf, hp, hok, herr⟩
        have hij : j ≠ i := fun hh => hjr (hh ▸ hi)
        have he : st.1.resources[i]? = some e' :=
          (loadStep_getElem_ne decode st j i hij).symm.trans he'
        refine ⟨i, List.mem_cons_of_mem _ hi, e', he, hn, hf, hp, fun s hs => ?_, herr⟩
        rcases hok s hs with ⟨hfired, hres⟩
        refine ⟨hfired.trans ?_, hres⟩
        -- the head step leaves the listeners registered under this name intact
        cases hej : st.1.resources[j]? with
        | none => rw [loadStep_none decode st j hej]
        | some ej =>
            cases hdj : decode ej.engine ej.type ej.path with
            | error errj => rw [loadStep_error decode st j ej errj hej hdj]
            | ok resj =>
                rw [loadStep_ok decode st j ej resj hej hdj]
                have hne : e'.name ≠ ej.name :=
                  name_ne_of_nodup hnames he hej (fun hh => hij hh.symm)
                show ((eventsLookup (eventsTake st.1.events ej.name).2 e'.name).getD []) = _
                rw [eventsLookup_eventsTake_ne _ _ _ hne]

/-- A scheduled entry whose decode fails produces its wrapped-error record. -/
theorem loadGo_record_exists_error {Res Err : Type} (decode : Decode Res Err) :
    ∀ (order : List Nat) (st : Resources Res × Nat), order.Nodup →
      ∀ (i : Nat) (e : ResourceEntry Res) (err : Err), i ∈ order →
        st.1.resources[i]? = some e → decode e.engine e.type e.path = .error err →
        ({ name := e.name, filename := e.filename, path := e.path,
           outcome := .error { message := "Failed to load resource '" ++ e.filename ++ "'",
                               cause := err } } : StepRecord Res Err) ∈
          (loadGo decode st order).2
  | [], _, _, i, _, _, hi, _, _ => by simp at hi
  | j :: rest, st, hnd, i, e, err, hi, he, hd => by
      have hnd' : rest.Nodup := (List.nodup_cons.mp hnd).2
      rw [loadGo_cons]
      rcases List.mem_cons.mp hi with hji | hir
      · subst hji
        rw [loadStep_error decode st i e err he hd]
        exact List.mem_append_left _ (List.mem_singleton.mpr rfl)
      · have hij : j ≠ i := fun hh => (List.nodup_cons.mp hnd).1 (hh ▸ hir)
        have he' : (loadStep decode st j).1.1.resources[i]? = some e :=
          (loadStep_getElem_ne decode st j i hij).trans he
        exact List.mem_append_right _
          (loadGo_record_exists_error decode rest _ hnd' i e err hir he' hd)

/-- A scheduled entry whose decode succeeds produces its success record, firing
exactly the callbacks registered under its name at the start of the run. -/
theorem loadGo_record_exists_ok {Res Err : Type} (decode : Decode Res Err) :
    ∀ (order : List Nat) (st : Resources Res × Nat), order.Nodup →
      ((st.1.resources.map (·.name)).Nodup) →
      ∀ (i : Nat) (e : ResourceEntry Res) (res : Res), i ∈ order →
        st.1.resources[i]? = some e → decode e.engine e.type e.path = .ok res →
        ∃ prog,
          ({ name := e.name, filename := e.filename, path := e.path,
             outcome := .ok { resource := res,
                              firedIds := (eventsLookup st.1.events e.name).getD [],
                              progress := prog } } : StepRecord Res Err) ∈
            (loadGo decode st order).2
  | [], _, _, _, i, _, _, hi, _, _ => by simp at hi
  | j :: rest, st, hnd, hnames, i, e, res, hi, he, hd => by
      have hnd' : rest.Nodup := (List.nodup_cons.mp hnd).2
      rw [loadGo_cons]
      rcases List.mem_cons.mp hi with hji | hir
      · subst hji
        rw [loadStep_ok decode st i e res he hd]
        refine ⟨{ total := st.1.resources.length, loaded := st.2 + 1,
                  percentage :=
                    if 0 < st.1.resources.length then
                      ((st.2 + 1 : ℚ) / (st.1.resources.length : ℚ)) * 100
                    else 100,
                  currentName := e.name, currentResource := res }, ?_⟩
        rw [← eventsTake_fst]
        exact List.mem_append_left _ (List.mem_singleton.mpr rfl)
      · have hij : j ≠ i := fun hh => (List.nodup_cons.mp hnd).1 (hh ▸ hir)
        have he' : (loadStep decode st j).1.1.resources[i]? = some e :=
          (loadStep_getElem_ne decode st j i hij).trans he
        have hnames' := (loadStep_map_name decode st j).symm ▸ hnames
        have hlk : (eventsLookup (loadStep decode st j).1.1.events e.name) =
            eventsLookup st.1.events e.name := by
          cases hej : st.1.resources[j]? with
          | none => rw [loadStep_none decode st j hej]
          | some ej =>
              cases hdj : decode ej.engine ej.type ej.path with
              | error errj => rw [loadStep_error decode st j ej errj hej hdj]
              | ok resj =>
                  rw [loadStep_ok decode st j ej resj hej hdj]
                  exact eventsLookup_eventsTake_ne _ _ _
                    (name_ne_of_nodup hnames he hej (fun hh => hij hh.symm))
        rcases loadGo_record_exists_ok decode rest _ hnd' hnames' i e res hir he' hd with
          ⟨prog, hmem⟩
        exact ⟨prog, List.mem_append_right _ (hlk ▸ hmem)⟩

/-- If no scheduled completion can successfully decode an entry named `nm`,
the listeners registered under `nm` survive the run untouched. -/
theorem loadGo_events_preserved {Res Err : Type} (decode : Decode Res Err) (nm : String) :
    ∀ (order : List Nat) (st : Resources Res × Nat),
      (∀ j ∈ order, ∀ ej : ResourceEntry Res, st.1.resources[j]? = some ej → ej.name = nm →
        ∀ res, decode ej.engine ej.type ej.path ≠ .ok res) →
      eventsLookup (loadGo decode st order).1.1.events nm = eventsLookup st.1.events nm
  | [], st, _ => rfl
  | j :: rest, st, hno => by
      rw [loadGo_cons]
      have hstep : eventsLookup (loadStep decode st j).1.1.events nm =
          eventsLookup st.1.events nm := by
        cases hej : st.1.resources[j]? with
        | none => rw [loadStep_none decode st j hej]
        | some ej =>
            cases hdj : decode ej.engine ej.type ej.path with
            | error errj => rw [loadStep_error decode st j ej errj hej hdj]
            | ok resj =>
                rw [loadStep_ok decode st j ej resj hej hdj]
                have hne : ej.name ≠ nm :=
                  fun hh => hno j (List.mem_cons_self _ _) ej hej hh resj hdj
                exact eventsLookup_eventsTake_ne _ _ _ (Ne.symm hne)
      have hno' : ∀ j' ∈ rest, ∀ ej : ResourceEntry Res,
          (loadStep decode st j).1.1.resources[j']? = some ej → ej.name = nm →
          ∀ res, decode ej.engine ej.type ej.path ≠ .ok res := by
        intro j' hj' ej hej hejn res hres
        have hskel := loadStep_skel decode st j j'
        rw [hej] at hskel
        cases horig : st.1.resources[j']? with
        | none => rw [horig] at hskel; simp at hskel
        | some e0 =>
            rw [horig] at hskel
            have hsk : ej.skel = e0.skel := by simpa using hskel
            have h1 : ej.name = e0.name := congrArg (fun q => q.1) hsk
            have h2 : ej.path = e0.path := congrArg (fun q => q.2.2.1) hsk
            have h3 : ej.engine = e0.engine := congrArg (fun q => q.2.2.2.1) hsk
            have h4 : ej.type = e0.type := congrArg (fun q => q.2.2.2.2) hsk
            exact hno j' (List.mem_cons_of_mem _ hj') e0 horig (h1 ▸ hejn) res
              (by rw [← h2, ← h3, ← h4]; exact hres)
      exact (loadGo_events_preserved decode nm rest _ hno').trans hstep

/-- After a successful decode of the entry named `nm`, the per-name callback
list for `nm` is gone. -/
theorem loadGo_events_cleared {Res Err : Type} (decode : Decode Res Err) :
    ∀ (order : List Nat) (st : Resources Res × Nat), order.Nodup →
      ((st.1.resources.map (·.name)).Nodup) → ((st.1.events.map (·.1)).Nodup) →
      ∀ (i : Nat) (e : ResourceEntry Res) (res : Res), i ∈ order →
        st.1.resources[i]? = some e → decode e.engine e.type e.path = .ok res →
        eventsLookup (loadGo decode st order).1.1.events e.name = none
  | [], _, _, _, _, i, _, _, hi, _, _ => by simp at hi
  | j :: rest, st, hnd, hnames, hkeys, i, e, res, hi, he, hd => by
      have hnd' : rest.Nodup := (List.nodup_cons.mp hnd).2
      have hjr : j ∉ rest := (List.nodup_cons.mp hnd).1
      rw [loadGo_cons]
      rcases List.mem_cons.mp hi with hji | hir
      · subst hji
        -- the head completion clears the key; no later completion bears this name
        have hstep : eventsLookup (loadStep decode st i).1.1.events e.name = none := by
          rw [loadStep_ok decode st i e res he hd]
          exact eventsLookup_eventsTake_self _ _ hkeys
        have hno : ∀ j' ∈ rest, ∀ ej : ResourceEntry Res,
            (loadStep decode st i).1.1.resources[j']? = some ej → ej.name = e.name →
            ∀ res', decode ej.engine ej.type ej.path ≠ .ok res' := by
          intro j' hj' ej hej hejn res' _
          have hij : i ≠ j' := fun hh => hjr (hh ▸ hj')
          have he' : (loadStep decode st i).1.1.resources[i]? =
              some { e with resource := some res, loaded := true } := by
            rw [loadStep_ok decode st i e res he hd]
            exact List.getElem?_set_self (List.getElem?_eq_some_iff.mp he).1
          have hnames' := (loadStep_map_name decode st i).symm ▸ hnames
          exact name_ne_of_nodup hnames' hej he' (fun hh => hij hh.symm) (by simpa using hejn)
        rw [loadGo_events_preserved decode e.name rest _ hno]
        exact hstep
      · have hij : j ≠ i := fun hh => hjr (hh ▸ hir)
        have he' : (loadStep decode st j).1.1.resources[i]? = some e :=
          (loadStep_getElem_ne decode st j i hij).trans he
        have hnames' := (loadStep_map_name decode st j).symm ▸ hnames
        have hkeys' := loadStep_keys_nodup decode st j hkeys
        exact loadGo_events_cleared decode rest _ hnd' hnames' hkeys' i e res hir he' hd

/-- Distinct scheduled indices bear distinct names, so no name is reported by
two records of one run. -/
theorem loadGo_records_names_nodup {Res Err : Type} (decode : Decode Res Err) :
    ∀ (order : List Nat) (st : Resources Res × Nat), order.Nodup →
      ((st.1.resources.map (·.name)).Nodup) → ((st.1.events.map (·.1)).Nodup) →
      (((loadGo decode st order).2.map (·.name)).Nodup)
  | [], _, _, _, _ => by simp [loadGo]
  | j :: rest, st, hnd, hnames, hkeys => by
      have hnd' : rest.Nodup := (List.nodup_cons.mp hnd).2
      have hjr : j ∉ rest := (List.nodup_cons.mp hnd).1
      have hnames' := (loadStep_map_name decode st j).symm ▸ hnames
      have hkeys' := loadStep_keys_nodup decode st j hkeys
      have htail := loadGo_records_names_nodup decode rest _ hnd' hnames' hkeys'
      rw [loadGo_cons]
      cases he : st.1.resources[j]? with
      | none =>
          have hstepeq := loadStep_none decode st j he
          rw [hstepeq] at htail ⊢
          simpa using htail
      | some e =>
          have hne : ∀ rec ∈ (loadGo decode (loadStep decode st j).1 rest).2,
              rec.name ≠ e.name := by
            intro rec hrec
            rcases loadGo_records_char decode rest _ hnd' hnames' hkeys' rec hrec with
              ⟨i, hi, e', he', hn, _, _, _, _⟩
            have hij : j ≠ i := fun hh => hjr (hh ▸ hi)
            have he'' : st.1.resources[i]? = some e' :=
              (loadStep_getElem_ne decode st j i hij).symm.trans he'
            exact fun hh =>
              (name_ne_of_nodup hnames he'' he (fun hh' => hij hh'.symm)) (hn ▸ hh)
          cases hd : decode e.engine e.type e.path with
          | error err =>
              have hstepeq := loadStep_error decode st j e err he hd
              rw [hstepeq] at htail hne ⊢
              simpa using ⟨fun x hx => hne x hx, htail⟩
          | ok res =>
              have hstepeq := loadStep_ok decode st j e res he hd
              rw [hstepeq] at htail hne ⊢
              simpa using ⟨fun x hx => hne x hx, htail⟩

theorem flatFired_cons {Res Err : Type} (rec : StepRecord Res Err)
    (rest : List (StepRecord Res Err)) :
    flatFired (rec :: rest) =
      (match rec.outcome with
        | .ok s => s.firedIds.map (fun id => (id, s.resource))
        | .error _ => []) ++ flatFired rest := by
  simp [flatFired]

theorem mem_flatFired {Res Err : Type} {records : List (StepRecord Res Err)} {pr : Nat × Res} :
    pr ∈ flatFired records ↔
      ∃ rec ∈ records, ∃ s, rec.outcome = .ok s ∧ pr.1 ∈ s.firedIds ∧ pr.2 = s.resource := by
  unfold flatFired
  rw [List.mem_flatMap]
  constructor
  · rintro ⟨rec, hrec, hpr⟩
    cases ho : rec.outcome with
    | ok s =>
        rw [ho] at hpr
        simp only at hpr
        rcases List.mem_map.mp hpr with ⟨id, hid, hpr'⟩
        refine ⟨rec, hrec, s, ho, ?_, ?_⟩
        · rw [← hpr']; exact hid
        · rw [← hpr']
    | error le => rw [ho] at hpr; simp at hpr
  · rintro ⟨rec, hrec, s, ho, hid, hres⟩
    refine ⟨rec, hrec, ?_⟩
    rw [ho]
    simp only []
    exact List.mem_map.mpr ⟨pr.1, hid, Prod.ext rfl hres.symm⟩

theorem flatFired_not_mem {Res Err : Type} {records : List (StepRecord Res Err)} {id : Nat}
    (h : ∀ rec ∈ records, ∀ s, rec.outcome = .ok s → id ∉ s.firedIds) :
    ∀ v : Res, (id, v) ∉ flatFired records := by
  intro v hmem
  rcases mem_flatFired.mp hmem with ⟨rec, hrec, s, ho, hid, _⟩
  exact h rec hrec s ho hid

theorem flatFired_countP_zero {Res Err : Type} {records : List (StepRecord Res Err)} {id : Nat}
    (h : ∀ rec ∈ records, ∀ s, rec.outcome = .ok s → id ∉ s.firedIds) :
    (flatFired records).countP (fun pr => pr.1 == id) = 0 := by
  refine List.countP_eq_zero.mpr (fun pr hmem => ?_)
  rcases mem_flatFired.mp hmem with ⟨rec, hrec, s, ho, hid, _⟩
  simp only [beq_iff_eq]
  intro hpr
  exact h rec hrec s ho (hpr ▸ hid)

/-- A promise id that can only have been registered under one reported name is
resolved exactly once across a run. -/
theorem flatFired_countP_unique {Res Err : Type} (nm : String) (id : Nat) :
    ∀ records : List (StepRecord Res Err),
      ((records.map (·.name)).Nodup) →
      (∀ rec ∈ records, ∀ s, rec.outcome = .ok s → id ∈ s.firedIds →
          rec.name = nm ∧ s.firedIds.count id = 1) →
      (∃ rec ∈ records, ∃ s, rec.outcome = .ok s ∧ id ∈ s.firedIds) →
      (flatFired records).countP (fun pr => pr.1 == id) = 1
  | [], _, _, hex => by simp at hex
  | rec :: rest, hnodup, honly, hex => by
      rw [flatFired_cons, List.countP_append]
      have hnodup' : ((rest.map (·.name)).Nodup) := (List.nodup_cons.mp hnodup).2
      have hnm : rec.name ∉ rest.map (·.name) := (List.nodup_cons.mp hnodup).1
      by_cases hhead : ∃ s, rec.outcome = .ok s ∧ id ∈ s.firedIds
      · rcases hhead with ⟨s, ho, hid⟩
        rcases honly rec (List.mem_cons_self _ _) s ho hid with ⟨hname, hcount⟩
        have hrest0 : (flatFired rest).countP (fun pr => pr.1 == id) = 0 := by
          refine flatFired_countP_zero (fun rec' hrec' s' ho' hid' => ?_)
          rcases honly rec' (List.mem_cons_of_mem _ hrec') s' ho' hid' with ⟨hname', _⟩
          exact hnm (hname.trans hname'.symm ▸ List.mem_map_of_mem (·.name) hrec')
        rw [hrest0, ho]
        simp only []
        rw [List.countP_map]
        have : (fun pr : Nat × Res => pr.1 == id) ∘ (fun i => (i, s.resource)) =
            (fun i => i == id) := rfl
        rw [this]
        exact hcount ▸ rfl
      · have hhead0 :
            (match rec.outcome with
              | .ok s => s.firedIds.map (fun i => (i, s.resource))
              | .error _ => ([] : List (Nat × Res))).countP
              (fun pr : Nat × Res => pr.1 == id) = 0 := by
          cases ho : rec.outcome with
          | error le => simp
          | ok s =>
              simp only []
              refine List.countP_eq_zero.mpr (fun pr hmem => ?_)
              rcases List.mem_map.mp hmem with ⟨i', hi', hpr'⟩
              simp only [beq_iff_eq]
              intro hpr
              have h1 : i' = id := by
                have h2 := congrArg Prod.fst hpr'
                simp only at h2
                exact h2.trans hpr
              exact hhead ⟨s, ho, h1 ▸ hi'⟩
        have hex' : ∃ rec' ∈ rest, ∃ s, rec'.outcome = .ok s ∧ id ∈ s.firedIds := by
          rcases hex with ⟨rec', hrec', s', ho', hid'⟩
          rcases List.mem_cons.mp hrec' with hh | hh
          · exact absurd ⟨s', hh ▸ ho', hid'⟩ hhead
          · exact ⟨rec', hh, s', ho', hid'⟩
        rw [hhead0,
          flatFired_countP_unique nm id rest hnodup'
            (fun rec' hrec' => honly rec' (List.mem_cons_of_mem _ hrec')) hex']

theorem flatFired_value_unique {Res Err : Type} {records : List (StepRecord Res Err)}
    {id : Nat} {res : Res}
    (honly : ∀ rec ∈ records, ∀ s, rec.outcome = .ok s → id ∈ s.firedIds →
        s.resource = res) :
    ∀ v, (id, v) ∈ flatFired records → v = res := by
  intro v hmem
  rcases mem_flatFired.mp hmem with ⟨rec, hrec, s, ho, hid, hres⟩
  exact hres.trans (honly rec hrec s ho hid)

/-- Every in-range scheduled completion produces exactly one record. -/
theorem loadGo_records_length {Res Err : Type} (decode : Decode Res Err) :
    ∀ (order : List Nat) (st : Resources Res × Nat),
      (∀ i ∈ order, i < st.1.resources.length) →
      (loadGo decode st order).2.length = order.length
  | [], _, _ => rfl
  | j :: rest, st, hlt => by
      rw [loadGo_cons]
      have hj : j < st.1.resources.length := hlt j (List.mem_cons_self _ _)
      have hlt' : ∀ i ∈ rest, i < (loadStep decode st j).1.1.resources.length := by
        intro i hi
        rw [loadStep_length]
        exact hlt i (List.mem_cons_of_mem _ hi)
      have hrest := loadGo_records_length decode rest _ hlt'
      rcases List.getElem?_eq_some_iff.mpr ⟨hj, rfl⟩ with he
      cases he : st.1.resources[j]? with
      | none =>
          exact absurd he (by simp [List.getElem?_eq_some_iff]; omega)
      | some e =>
          cases hd : decode e.engine e.type e.path with
          | error err => rw [loadStep_error decode st j e err he hd] at hrest ⊢; simp [hrest]
          | ok res => rw [loadStep_ok decode st j e res he hd] at hrest ⊢; simp [hrest]

/-- With a rejection among the records, the aggregate promise rejects. -/
theorem loadResult_error_of_mem {Res Err : Type} :
    ∀ {records : List (StepRecord Res Err)},
      (∃ rec ∈ records, ∃ le, rec.outcome = .error le) →
      ∃ le, loadResult records = .error le
  | [], h => by simp at h
  | rec :: rest, h => by
      cases ho : rec.outcome with
      | error le => exact ⟨le, by simp [loadResult, ho]⟩
      | ok s =>
          have : ∃ rec' ∈ rest, ∃ le, rec'.outcome = .error le := by
            rcases h with ⟨rec', hrec', le, hle⟩
            rcases List.mem_cons.mp hrec' with hh | hh
            · rw [hh, ho] at hle; simp at hle
            · exact ⟨rec', hh, le, hle⟩
          rcases loadResult_error_of_mem this with ⟨le, hle⟩
          exact ⟨le, by simp [loadResult, ho, hle]⟩

/-- The first rejection in completion order is the one the aggregate
`Promise.all` settles with. -/
theorem loadResult_first_error {Res Err : Type} :
    ∀ (l₁ : List (StepRecord Res Err)) (rec : StepRecord Res Err)
      (l₂ : List (StepRecord Res Err)),
      (∀ pr ∈ l₁, ∀ le, pr.outcome ≠ .error le) → ∀ le, rec.outcome = .error le →
      loadResult (l₁ ++ rec :: l₂) = .error le
  | [], rec, l₂, _, le, hle => by simp [loadResult, hle]
  | pr :: l₁, rec, l₂, hok, le, hle => by
      cases ho : pr.outcome with
      | error le' => exact absurd ho (hok pr (List.mem_cons_self _ _) le')
      | ok s =>
          have := loadResult_first_error l₁ rec l₂
            (fun q hq => hok q (List.mem_cons_of_mem _ hq)) le hle
          simpa [loadResult, ho] using this

/-- With no rejection among the records, the aggregate promise resolves. -/
theorem loadResult_ok {Res Err : Type} :
    ∀ {records : List (StepRecord Res Err)},
      (∀ rec ∈ records, ∃ s, rec.outcome = .ok s) → loadResult records = .ok ()
  | [], _ => rfl
  | rec :: rest, h => by
      rcases h rec (List.mem_cons_self _ _) with ⟨s, hs⟩
      have := loadResult_ok (fun q hq => h q (List.mem_cons_of_mem _ hq))
      simp [loadResult, hs, this]

theorem mem_progressLog {Res Err : Type} {records : List (StepRecord Res Err)}
    {p : LoadingProgress Res} :
    p ∈ progressLog records ↔
      ∃ rec ∈ records, ∃ s, rec.outcome = .ok s ∧ s.progress = p := by
  unfold progressLog
  rw [List.mem_filterMap]
  constructor
  · rintro ⟨rec, hrec, hp⟩
    cases ho : rec.outcome with
    | ok s =>
        rw [ho] at hp
        simp only [Option.some_inj] at hp
        exact ⟨rec, hrec, s, ho, hp⟩
    | error le => rw [ho] at hp; simp at hp
  · rintro ⟨rec, hrec, s, ho, hp⟩
    exact ⟨rec, hrec, by rw [ho]; simpa using hp⟩

/-- The `loaded` fields reported across one run are consecutive: the `k`-th
success reports `k` entries completed so far. -/
theorem progressLog_loaded {Res Err : Type} (decode : Decode Res Err) :
    ∀ (order : List Nat) (st : Resources Res × Nat),
      ∃ m, (progressLog (loadGo decode st order).2).map (·.loaded) =
        List.range' (st.2 + 1) m
  | [], st => ⟨0, rfl⟩
  | j :: rest, st => by
      rw [loadGo_cons]
      cases he : st.1.resources[j]? with
      | none =>
          have hstepeq := loadStep_none decode st j he
          rw [hstepeq]
          simpa using progressLog_loaded decode rest st
      | some e =>
          cases hd : decode e.engine e.type e.path with
          | error err =>
              have hstepeq := loadStep_error decode st j e err he hd
              rw [hstepeq]
              rcases progressLog_loaded decode rest st with ⟨m, hm⟩
              exact ⟨m, by simpa [progressLog] using hm⟩
          | ok res =>
              have hstepeq := loadStep_ok decode st j e res he hd
              rw [hstepeq]
              rcases progressLog_loaded decode rest
                (({ st.1 with
                      resources := st.1.resources.set j
                        { e with resource := some res, loaded := true },
                      events := (eventsTake st.1.events e.name).2 }, st.2 + 1)) with ⟨m, hm⟩
              refine ⟨m + 1, ?_⟩
              rw [List.range'_succ]
              simpa [progressLog] using hm

/-- Shape of every reported snapshot: constant total, percentage computed from
its own counts by the source formula, and the just-completed entry. -/
theorem progressLog_snapshot_shape {Res Err : Type} (decode : Decode Res Err) :
    ∀ (order : List Nat) (st : Resources Res × Nat),
      ∀ rec ∈ (loadGo decode st order).2, ∀ s, rec.outcome = .ok s →
        s.progress.total = st.1.resources.length ∧
        s.progress.currentName = rec.name ∧
        s.progress.currentResource = s.resource ∧
        s.progress.percentage =
          (if 0 < s.progress.total then
            ((s.progress.loaded : ℚ) / (s.progress.total : ℚ)) * 100
          else 100)
  | [], _, rec, hrec => by simp [loadGo] at hrec
  | j :: rest, st, rec, hrec => by
      rw [loadGo_cons] at hrec
      have htail : ∀ rec' ∈ (loadGo decode (loadStep decode st j).1 rest).2,
          ∀ s, rec'.outcome = .ok s →
          s.progress.total = st.1.resources.length ∧
          s.progress.currentName = rec'.name ∧
          s.progress.currentResource = s.resource ∧
          s.progress.percentage =
            (if 0 < s.progress.total then
              ((s.progress.loaded : ℚ) / (s.progress.total : ℚ)) * 100
            else 100) := by
        intro rec' hrec' s hs
        have h := progressLog_snapshot_shape decode rest _ rec' hrec' s hs
        rwa [loadStep_length decode st j] at h
      rcases List.mem_append.mp hrec with hhead | ht
      · cases he : st.1.resources[j]? with
        | none => rw [loadStep_none decode st j he] at hhead; simp at hhead
        | some e =>
            cases hd : decode e.engine e.type e.path with
            | error err =>
                rw [loadStep_error decode st j e err he hd] at hhead
                simp only [Option.toList_some, List.mem_singleton] at hhead
                subst hhead
                intro s hs
                simp at hs
            | ok res =>
                rw [loadStep_ok decode st j e res he hd] at hhead
                simp only [Option.toList_some, List.mem_singleton] at hhead
                subst hhead
                intro s hs
                injection hs with hseq
                subst hseq
                refine ⟨rfl, rfl, rfl, ?_⟩
                simp [Nat.cast_add, Nat.cast_one]
      · exact htail rec ht

/-- Mapping a monotone function over a consecutive range yields a
non-decreasing sequence. -/
theorem chain_le_map_range' (f : Nat → ℚ) (hf : ∀ a b, a ≤ b → f a ≤ f b) :
    ∀ (m a : Nat), List.Chain' (· ≤ ·) ((List.range' a m).map f)
  | 0, _ => by simp
  | 1, a => by simp
  | m + 2, a => by
      rw [List.range'_succ, List.map_cons]
      refine List.chain'_cons'.mpr ⟨?_, chain_le_map_range' f hf (m + 1) (a + 1)⟩
      intro y hy
      rw [List.range'_succ, List.map_cons] at hy
      simp only [List.head?_cons, Option.mem_def, Option.some_inj] at hy
      exact hy ▸ hf a (a + 1) (Nat.le_succ a)

/-- A valid completion order schedules every declared entry. -/
theorem validOrder_mem {order : List Nat} {n : Nat} (h : ValidOrder order n) :
    ∀ i, i < n → i ∈ order := by
  rcases h with ⟨hnd, hlen, hlt⟩
  intro i hi
  have hsub : order.toFinset ⊆ Finset.range n := by
    intro x hx
    exact Finset.mem_range.mpr (hlt x (List.mem_toFinset.mp hx))
  have hcard : (Finset.range n).card ≤ order.toFinset.card := by
    rw [Finset.card_range, List.toFinset_card_of_nodup hnd, hlen]
  have heq : order.toFinset = Finset.range n :=
    Finset.eq_of_subset_of_card_le hsub hcard
  exact List.mem_toFinset.mp (heq ▸ Finset.mem_range.mpr hi)

theorem findEntry_name {Res : Type} {r : Resources Res} {nm : String} {e : ResourceEntry Res}
    (h : r.findEntry nm = some e) : e.name = nm := by
  have := List.find?_some h
  simpa using this

/-- `getLazy` on a declared-but-unloaded entry: a fresh pending promise,
registered under the entry's name. -/
theorem getLazy_pending {Res : Type} (r : Resources Res) (nm : String) (e : ResourceEntry Res)
    (hfind : r.findEntry nm = some e) (hnl : e.loaded = false ∨ e.resource = none) :
    r.getLazy nm = .ok (.pending r.nextId,
      { r with events := eventsAdd r.events e.name r.nextId, nextId := r.nextId + 1 }) := by
  obtain ⟨nme, fn, ty, eng, pa, rsc, ld⟩ := e
  unfold Resources.getLazy
  rw [hfind]
  cases ld with
  | false => cases rsc <;> rfl
  | true =>
      have h : rsc = none := by
        rcases hnl with h | h
        · simp at h
        · simpa using h
      subst h
      rfl

/-- Characterization of `k` concurrent lazy requests for one unloaded name:
the pending ids are the next `k` fresh ids, the declarations are untouched,
and the ids are appended to that name's callback list in registration order. -/
theorem getLazyN_char {Res : Type} :
    ∀ (k : Nat) (r : Resources Res) (nm : String) (e : ResourceEntry Res),
      r.findEntry nm = some e → (e.loaded = false ∨ e.resource = none) →
      ((getLazyN r nm k).1 = List.range' r.nextId k) ∧
      ((getLazyN r nm k).2.resources = r.resources) ∧
      ((getLazyN r nm k).2.basePath = r.basePath) ∧
      ((getLazyN r nm k).2.nextId = r.nextId + k) ∧
      (((eventsLookup (getLazyN r nm k).2.events nm).getD []) =
        (eventsLookup r.events nm).getD [] ++ List.range' r.nextId k) ∧
      (∀ m, m ≠ nm → eventsLookup (getLazyN r nm k).2.events m = eventsLookup r.events m)
  | 0, r, nm, e, _, _ => ⟨rfl, rfl, rfl, rfl, by simp [getLazyN], fun _ _ => rfl⟩
  | k + 1, r, nm, e, hfind, hnl => by
      have hname := findEntry_name hfind
      have hstep := getLazy_pending r nm e hfind hnl
      set r1 : Resources Res :=
        { r with
            events := eventsAdd r.events e.name r.nextId,
            nextId := r.nextId + 1 } with hr1def
      have hr1 : (getLazyN r nm (k + 1)) =
          (r.nextId :: (getLazyN r1 nm k).1, (getLazyN r1 nm k).2) := by
        conv_lhs => rw [getLazyN]
        rw [hstep]
      have hfind1 : r1.findEntry nm = some e := hfind
      rcases getLazyN_char k r1 nm e hfind1 hnl with ⟨ha, hb, hc, hd, he', hf⟩
      refine ⟨?_, ?_, ?_, ?_, ?_, ?_⟩
      · rw [hr1, ha, List.range'_succ]
      · rw [hr1]; exact hb
      · rw [hr1]; exact hc
      · rw [hr1, hd]; show r.nextId + 1 + k = r.nextId + (k + 1); omega
      · rw [hr1, he']
        have : eventsLookup r1.events nm = some ((eventsLookup r.events nm).getD [] ++ [r.nextId]) := by
          rw [hr1def]
          show eventsLookup (eventsAdd r.events e.name r.nextId) nm = _
          rw [hname]
          exact eventsLookup_eventsAdd_self r.events nm r.nextId
        rw [this]
        show ((eventsLookup r.events nm).getD [] ++ [r.nextId]) ++ List.range' (r1.nextId) k = _
        have hnext : r1.nextId = r.nextId + 1 := rfl
        rw [hnext, List.append_assoc]
        congr 1
      · intro m hm
        rw [hr1, hf m hm]
        show eventsLookup (eventsAdd r.events e.name r.nextId) m = _
        rw [hname]
        exact eventsLookup_eventsAdd_ne r.events nm m r.nextId hm

/-- The lazy-request scenario preserves the events-map invariants. -/
theorem getLazyN_wf {Res : Type} :
    ∀ (k : Nat) (r : Resources Res) (nm : String) (e : ResourceEntry Res),
      r.findEntry nm = some e → (e.loaded = false ∨ e.resource = none) →
      ((r.events.map (·.1)).Nodup) → (∀ p ∈ r.events, ∀ id ∈ p.2, id < r.nextId) →
      (((getLazyN r nm k).2.events.map (·.1)).Nodup) ∧
      (∀ p ∈ (getLazyN r nm k).2.events, ∀ id ∈ p.2, id < r.nextId + k)
  | 0, r, nm, e, _, _, hkeys, hbound => ⟨hkeys, fun p hp id hid => by
      have := hbound p hp id hid; omega⟩
  | k + 1, r, nm, e, hfind, hnl, hkeys, hbound => by
      have hname := findEntry_name hfind
      have hstep := getLazy_pending r nm e hfind hnl
      set r1 : Resources Res :=
        { r with
            events := eventsAdd r.events e.name r.nextId,
            nextId := r.nextId + 1 } with hr1def
      have hr1 : (getLazyN r nm (k + 1)).2 = (getLazyN r1 nm k).2 := by
        conv_lhs => rw [getLazyN]
        rw [hstep]
      have hkeys1 : ((r1.events.map (·.1)).Nodup) := eventsAdd_keys_nodup _ _ _ hkeys
      have hbound1 : ∀ p ∈ r1.events, ∀ id ∈ p.2, id < r1.nextId := by
        intro p hp id hid
        rcases mem_eventsAdd r.events e.name r.nextId hp id hid with ⟨q, hq, hidq⟩ | hh
        · have := hbound q hq id hidq
          show id < r.nextId + 1
          omega
        · rw [hh]; show r.nextId < r.nextId + 1; omega
      rcases getLazyN_wf k r1 nm e hfind hnl hkeys1 hbound1 with ⟨h1, h2⟩
      rw [hr1]
      refine ⟨h1, fun p hp id hid => ?_⟩
      have := h2 p hp id hid
      have hnext : r1.nextId = r.nextId + 1 := rfl
      omega

theorem findEntry_of_getElem {Res : Type} :
    ∀ {l : List (ResourceEntry Res)}, ((l.map (·.name)).Nodup) →
      ∀ {i : Nat} {e : ResourceEntry Res}, l[i]? = some e →
        l.find? (·.name == e.name) = some e
  | [], _, i, e, he => by simp at he
  | x :: xs, h, 0, e, he => by
      simp only [List.getElem?_cons_zero, Option.some_inj] at he
      subst he
      exact List.find?_cons_of_pos _ (by simp)
  | x :: xs, h, i + 1, e, he => by
      simp only [List.getElem?_cons_succ] at he
      have hmem : e ∈ xs := List.getElem?_mem he
      have hx : x.name ≠ e.name := by
        intro hh
        have hm : e.name ∈ xs.map (·.name) := List.mem_map_of_mem (·.name) hmem
        apply (List.nodup_cons.mp h).1
        show x.name ∈ xs.map (·.name)
        rw [hh]
        exact hm
      rw [List.find?_cons_of_neg _ (by simpa using hx)]
      exact findEntry_of_getElem (List.nodup_cons.mp h).2 he

theorem eq_of_name_mem_nodup {Res : Type} {l : List (ResourceEntry Res)}
    (h : (l.map (·.name)).Nodup) {e1 e2 : ResourceEntry Res} (h1 : e1 ∈ l) (h2 : e2 ∈ l)
    (hn : e1.name = e2.name) : e1 = e2 :=
  List.inj_on_of_nodup_map h h1 h2 hn

theorem loadGo_map_name {Res Err : Type} (decode : Decode Res Err) :
    ∀ (order : List Nat) (st : Resources Res × Nat),
      ((loadGo decode st order).1.1.resources).map (·.name) = (st.1.resources).map (·.name)
  | [], _ => rfl
  | i :: rest, st => by
      rw [loadGo_cons]
      exact (loadGo_map_name decode rest _).trans (loadStep_map_name decode st i)

/-- Name/filename/path of every record belong to some snapshot entry
(no uniqueness assumptions needed). -/
theorem loadGo_records_skel {Res Err : Type} (decode : Decode Res Err) :
    ∀ (order : List Nat) (st : Resources Res × Nat),
      ∀ rec ∈ (loadGo decode st order).2,
        ∃ e : ResourceEntry Res, e ∈ st.1.resources ∧
          rec.name = e.name ∧ rec.filename = e.filename ∧ rec.path = e.path
  | [], _, rec, hrec => by simp [loadGo] at hrec
  | j :: rest, st, rec, hrec => by
      rw [loadGo_cons] at hrec
      rcases List.mem_append.mp hrec with hhead | htail
      · cases he : st.1.resources[j]? with
        | none => rw [loadStep_none decode st j he] at hhead; simp at hhead
        | some e =>
            cases hd : decode e.engine e.type e.path with
            | error err =>
                rw [loadStep_error decode st j e err he hd] at hhead
                simp only [Option.toList_some, List.mem_singleton] at hhead
                subst hhead
                exact ⟨e, List.getElem?_mem he, rfl, rfl, rfl⟩
            | ok res =>
                rw [loadStep_ok decode st j e res he hd] at hhead
                simp only [Option.toList_some, List.mem_singleton] at hhead
                subst hhead
                exact ⟨e, List.getElem?_mem he, rfl, rfl, rfl⟩
      · rcases loadGo_records_skel decode rest _ rec htail with ⟨e', hmem', hn, hf, hp⟩
        rcases List.mem_iff_getElem?.mp hmem' with ⟨i, hi⟩
        have hskel := loadStep_skel decode st j i
        rw [hi] at hskel
        cases horig : st.1.resources[i]? with
        | none => rw [horig] at hskel; simp at hskel
        | some e0 =>
            rw [horig] at hskel
            have hsk : e'.skel = e0.skel := by simpa using hskel
            have h1 : e'.name = e0.name := congrArg (fun q => q.1) hsk
            have h2 : e'.filename = e0.filename := congrArg (fun q => q.2.1) hsk
            have h3 : e'.path = e0.path := congrArg (fun q => q.2.2.1) hsk
            exact ⟨e0, List.getElem?_mem horig, hn.trans h1, hf.trans h2, hp.trans h3⟩

/-- When every scheduled decode succeeds, every record is a success record. -/
theorem loadGo_all_ok {Res Err : Type} (decode : Decode Res Err) :
    ∀ (order : List Nat) (st : Resources Res × Nat),
      (∀ i ∈ order, ∀ e : ResourceEntry Res, st.1.resources[i]? = some e →
        ∃ res, decode e.engine e.type e.path = .ok res) →
      ∀ rec ∈ (loadGo decode st order).2, ∃ s, rec.outcome = .ok s
  | [], _, _, rec, hrec => by simp [loadGo] at hrec
  | j :: rest, st, hall, rec, hrec => by
      rw [loadGo_cons] at hrec
      have hall' : ∀ i ∈ rest, ∀ e : ResourceEntry Res,
          (loadStep decode st j).1.1.resources[i]? = some e →
          ∃ res, decode e.engine e.type e.path = .ok res := by
        intro i hi e he
        have hskel := loadStep_skel decode st j i
        rw [he] at hskel
        cases horig : st.1.resources[i]? with
        | none => rw [horig] at hskel; simp at hskel
        | some e0 =>
            rw [horig] at hskel
            have hsk : e.skel = e0.skel := by simpa using hskel
            have h2 : e.path = e0.path := congrArg (fun q => q.2.2.1) hsk
            have h3 : e.engine = e0.engine := congrArg (fun q => q.2.2.2.1) hsk
            have h4 : e.type = e0.type := congrArg (fun q => q.2.2.2.2) hsk
            rw [h2, h3, h4]
            exact hall i (List.mem_cons_of_mem _ hi) e0 horig
      rcases List.mem_append.mp hrec with hhead | htail
      · cases he : st.1.resources[j]? with
        | none => rw [loadStep_none decode st j he] at hhead; simp at hhead
        | some e =>
            rcases hall j (List.mem_cons_self _ _) e he with ⟨res, hres⟩
            rw [loadStep_ok decode st j e res he hres] at hhead
            simp only [Option.toList_some, List.mem_singleton] at hhead
            subst hhead
            exact ⟨_, rfl⟩
      · exact loadGo_all_ok decode rest _ hall' rec htail

theorem progressLog_length_all_ok {Res Err : Type} :
    ∀ {records : List (StepRecord Res Err)},
      (∀ rec ∈ records, ∃ s, rec.outcome = .ok s) →
      (progressLog records).length = records.length
  | [], _ => rfl
  | rec :: rest, h => by
      rcases h rec (List.mem_cons_self _ _) with ⟨s, hs⟩
      have hrest := progressLog_length_all_ok (fun q hq => h q (List.mem_cons_of_mem _ hq))
      unfold progressLog at hrest ⊢
      rw [List.filterMap_cons]
      simp only [hs]
      simpa using hrest

theorem eventsLookup_mem {ev : List (String × List Nat)} {nm : String} {l : List Nat}
    (h : eventsLookup ev nm = some l) : (nm, l) ∈ ev := by
  unfold eventsLookup at h
  cases hf : ev.find? (·.1 == nm) with
  | none => rw [hf] at h; simp at h
  | some p =>
      rw [hf] at h
      have h2 : p.2 = l := by simpa using h
      have hmem := List.mem_of_find?_eq_some hf
      have hfst : p.1 = nm := by simpa using List.find?_some hf
      have hp : p = (nm, l) := by
        obtain ⟨a, b⟩ := p
        simp only at hfst h2
        rw [hfst, h2]
      exact hp ▸ hmem

/-- In a subscription map whose registered ids are globally distinct, lists
under different keys are disjoint. -/
theorem disjoint_of_flatMap_nodup :
    ∀ {l : List (String × List Nat)}, ((l.flatMap (·.2)).Nodup) →
      ∀ {p q : String × List Nat}, p ∈ l → q ∈ l → p.1 ≠ q.1 →
      ∀ {id : Nat}, id ∈ p.2 → id ∉ q.2
  | [], _, p, q, hp, _, _, _, _ => by simp at hp
  | x :: xs, h, p, q, hp, hq, hne, id, hid => by
      rw [List.flatMap_cons] at h
      rcases List.nodup_append.mp h with ⟨hx, hxs, hdisj⟩
      rcases List.mem_cons.mp hp with hpx | hpxs <;> rcases List.mem_cons.mp hq with hqx | hqxs
      · exact absurd (hpx ▸ hqx ▸ rfl) hne
      · intro hidq
        exact hdisj (hpx ▸ hid) (List.mem_flatMap.mpr ⟨q, hqxs, hidq⟩)
      · intro hidq
        exact hdisj (hqx ▸ hidq) (List.mem_flatMap.mpr ⟨p, hpxs, hid⟩)
      · exact disjoint_of_flatMap_nodup hxs hpxs hqxs hne hid

theorem load_def {Res Err : Type} (r : Resources Res) (decode : Decode Res Err)
    (order : List Nat) :
    r.load decode order = ((loadGo decode (r, 0) order).1.1, (loadGo decode (r, 0) order).2) :=
  rfl

theorem headD_mem_of_ne_nil {α : Type _} {l : List α} (h : l ≠ []) (d : α) : l.headD d ∈ l := by
  cases l with
  | nil => exact absurd rfl h
  | cons x xs => exact List.mem_cons_self _ _

/-! ## The claims -/

/-- **C4**: `get` throws the not-found message for an undeclared name, the
not-loaded message for a declared-but-unloaded entry, and otherwise returns
the stored resource.  `get` is a pure observer in the source (it performs no
mutation), so lookups and their errors leave the registry state unchanged by
construction. -/
theorem get_spec {Res : Type} (r : Resources Res) (nm : String) :
    (r.findEntry nm = none →
      r.get nm = .error ("Resource '" ++ nm ++ "' not found. Did you add it to the resources?")) ∧
    (∀ e : ResourceEntry Res, r.findEntry nm = some e → (e.loaded = false ∨ e.resource = none) →
      r.get nm = .error ("Resource '" ++ nm ++ "' not loaded yet. Call load() first.")) ∧
    (∀ (e : ResourceEntry Res) (res : Res), r.findEntry nm = some e → e.loaded = true →
      e.resource = some res → r.get nm = .ok res) := by
  refine ⟨fun h => ?_, fun e hf hnl => ?_, fun e res hf hl hr => ?_⟩
  · unfold Resources.get
    rw [h]
    rfl
  · obtain ⟨nme, fn, ty, eng, pa, rsc, ld⟩ := e
    unfold Resources.get
    rw [hf]
    cases ld with
    | false => cases rsc <;> rfl
    | true =>
        have h : rsc = none := by
          rcases hnl with h | h
          · simp at h
          · simpa using h
        subst h
        rfl
  · obtain ⟨nme, fn, ty, eng, pa, rsc, ld⟩ := e
    simp only at hl hr
    subst hl
    subst hr
    unfold Resources.get
    rw [hf]

theorem get_spec_witness :
    (sampleRegistry.get "zzz" =
      .error ("Resource '" ++ "zzz" ++ "' not found. Did you add it to the resources?")) ∧
    (sampleRegistry.get "a" =
      .error ("Resource '" ++ "a" ++ "' not loaded yet. Call load() first.")) ∧
    (sampleLoaded.get "a" = .ok 7) :=
  ⟨(get_spec sampleRegistry "zzz").1 (by decide),
   (get_spec sampleRegistry "a").2.1
     { name := "a", filename := "a.png", type := .texture, engine := .pixi,
       path := "b/a.png", resource := none, loaded := false } (by decide) (by decide),
   (get_spec sampleLoaded "a").2.2
     { name := "a", filename := "a.png", type := .texture, engine := .pixi,
       path := "b/a.png", resource := some 7, loaded := true } 7 (by decide) rfl rfl⟩

/-- **C5**: declaring a filename whose extension (the substring after the last
dot) has no entry in the extension table throws synchronously with a message
containing the literal extension.  The error is raised before the entry is
built and before any decoder activity (`add` never decodes), and the failed
call returns no registry: the caller's declaration collection is unchanged. -/
theorem add_unsupported_extension {Res : Type} (r : Resources Res) (filename : String)
    (engine : Engine) (hext : extensionMap (jsExt filename) = none) :
    r.add filename engine = .error ("Unsupported file extension: ." ++ jsExt filename) := by
  unfold Resources.add
  rw [hext]

theorem add_unsupported_extension_witness :
    extensionMap (jsExt "x.txt") = none ∧
    (Resources.new Nat "b").add "x.txt" Engine.pixi =
      .error "Unsupported file extension: .txt" :=
  ⟨rfl, add_unsupported_extension (Resources.new Nat "b") "x.txt" Engine.pixi rfl⟩

/-- **C7**: for every registry state, the `progress` getter computes exactly
the spec's `{total, loaded, percentage}` snapshot. -/
theorem progress_refines_spec {Res : Type} (r : Resources Res) :
    r.progress = progressSpec r := by
  unfold Resources.progress progressSpec
  rw [List.countP_eq_length_filter]
  rcases Nat.eq_zero_or_pos r.resources.length with h | h
  · simp [h]
  · simp [h, Nat.pos_iff_ne_zero.mp h]

/-- **C10**: a filename whose only dot sits at index 0 (so `lastIndexOf "."`
is `0`) keeps the whole filename — leading dot included — as the entry's
name, while the kind is still inferred from the substring after that dot. -/
theorem add_leading_dot {Res : Type} (r : Resources Res) (filename : String) (engine : Engine)
    (ty : ResourceType) (hdot : jsLastDot filename = 0)
    (hty : extensionMap (jsExt filename) = some ty) :
    ∃ r' : Resources Res, r.add filename engine = .ok r' ∧
      jsName filename = filename ∧
      r'.findEntry filename = some
        { name := filename, filename := filename, type := ty, engine := engine,
          path := r.basePath ++ "/" ++ filename, resource := none, loaded := false } := by
  have hname : jsName filename = filename := by
    unfold jsName
    rw [hdot]
    simp
  set entry : ResourceEntry Res :=
    { name := filename, filename := filename, type := ty, engine := engine,
      path := r.basePath ++ "/" ++ filename, resource := none, loaded := false } with hentry
  refine ⟨{ r with resources := upsert r.resources entry }, ?_, hname, ?_⟩
  · unfold Resources.add
    rw [hty, hname]
  · show (upsert r.resources entry).find? (·.name == filename) = some entry
    have := find?_upsert r.resources entry
    rw [hentry] at this
    exact this

theorem add_leading_dot_witness :
    jsLastDot ".png" = 0 ∧
    ∃ r' : Resources Nat, (Resources.new Nat "b").add ".png" Engine.pixi = .ok r' ∧
      jsName ".png" = ".png" ∧
      r'.findEntry ".png" = some
        { name := ".png", filename := ".png", type := .texture, engine := .pixi,
          path := "b/.png", resource := none, loaded := false } :=
  ⟨by decide, add_leading_dot (Resources.new Nat "b") ".png" Engine.pixi .texture
    (by decide) rfl⟩

/-- **C1**: re-declaring a declared name overwrites the prior declaration.
Afterwards `names` contains exactly one entry for that name; the stored entry
is the fresh one (its `resource` is `none`, so any previously resolved
resource of the prior declaration is discarded); `add` leaves the lazy
subscriptions untouched; and in any subsequent run every record bearing that
name — in particular the one whose `emitLoaded` fires the pre-overwrite
subscriptions — decodes the new declaration's filename and path, never the
discarded one's. -/
theorem add_overwrite_spec {Res Err : Type} (r : Resources Res) (hwf : r.WF) (f : String)
    (eng : Engine) (r2 : Resources Res) (hprev : jsName f ∈ r.names)
    (hadd : r.add f eng = .ok r2) :
    (r2.names.count (jsName f) = 1) ∧
    (∃ ty, extensionMap (jsExt f) = some ty ∧
      r2.findEntry (jsName f) = some
        { name := jsName f, filename := f, type := ty, engine := eng,
          path := r.basePath ++ "/" ++ f, resource := none, loaded := false }) ∧
    (r2.events = r.events) ∧
    (∀ (decode : Decode Res Err) (order : List Nat),
      ∀ rec ∈ (r2.load decode order).2, rec.name = jsName f →
        rec.filename = f ∧ rec.path = r.basePath ++ "/" ++ f) := by
  unfold Resources.add at hadd
  cases hext : extensionMap (jsExt f) with
  | none => rw [hext] at hadd; cases hadd
  | some ty =>
      rw [hext] at hadd
      injection hadd with hadd
      subst hadd
      set entry : ResourceEntry Res :=
        { name := jsName f, filename := f, type := ty, engine := eng,
          path := r.basePath ++ "/" ++ f, resource := none, loaded := false } with hentry
      have hfind : (upsert r.resources entry).find? (·.name == jsName f) = some entry := by
        have := find?_upsert r.resources entry
        rwa [hentry] at this
      have hmem : entry ∈ upsert r.resources entry := List.mem_of_find?_eq_some hfind
      have hnodup2 : ((upsert r.resources entry).map (·.name)).Nodup :=
        upsert_nodup r.resources entry hwf.1
      refine ⟨?_, ⟨ty, by simp [hext], hfind⟩, rfl, ?_⟩
      · have := count_upsert_name r.resources entry hwf.1
        rwa [hentry] at this
      · intro decode order rec hrec hname
        rcases loadGo_records_skel decode order _ rec hrec with ⟨e', hmem', hn, hf', hp'⟩
        have : e' = entry :=
          eq_of_name_mem_nodup hnodup2 hmem' hmem (by rw [← hn, hname, hentry])
        subst this
        exact ⟨hf', hp'⟩

theorem add_overwrite_spec_witness :
    sampleRegistry.WF ∧ jsName "a.jpg" ∈ sampleRegistry.names ∧
    sampleRegistry.add "a.jpg" Engine.three = .ok sampleOverwritten ∧
    (sampleOverwritten.names.count (jsName "a.jpg") = 1) ∧
    (∃ ty, extensionMap (jsExt "a.jpg") = some ty ∧
      sampleOverwritten.findEntry (jsName "a.jpg") = some
        { name := jsName "a.jpg", filename := "a.jpg", type := ty, engine := .three,
          path := sampleRegistry.basePath ++ "/" ++ "a.jpg", resource := none,
          loaded := false }) ∧
    (sampleOverwritten.events = sampleRegistry.events) ∧
    (firstRecord ((sampleOverwritten.load okDecode [0]).2)).filename = "a.jpg" := by
  have h := @add_overwrite_spec Nat Nat sampleRegistry (by decide) "a.jpg" Engine.three
    sampleOverwritten (by decide) (by decide)
  have hne : ((sampleOverwritten.load okDecode [0]).2) ≠ [] := by
    intro hcontra
    have hlen := congrArg List.length hcontra
    rw [show ((sampleOverwritten.load okDecode [0]).2).length = 1 from rfl] at hlen
    simp at hlen
  have hmem : firstRecord ((sampleOverwritten.load okDecode [0]).2) ∈
      (sampleOverwritten.load okDecode [0]).2 := headD_mem_of_ne_nil hne _
  exact ⟨by decide, by decide, by decide, h.1, h.2.1, h.2.2.1,
    (h.2.2.2 okDecode [0] (firstRecord ((sampleOverwritten.load okDecode [0]).2))
      hmem rfl).1⟩

/-- **C8**: a `load()` on a registry whose entries are all already loaded
re-decodes every declared entry (one record per entry, no skip shortcut) and
overwrites each entry's `resource` with the fresh decode result. -/
theorem load_redecodes {Res Err : Type} (r : Resources Res) (hloaded : r.isLoaded = true)
    (decode : Decode Res Err) (order : List Nat)
    (hvalid : ValidOrder order r.resources.length) (hall : AllOk decode r order) :
    ((r.load decode order).2.length = r.resources.length) ∧
    (∀ (i : Nat) (e : ResourceEntry Res), r.resources[i]? = some e →
      ∃ res, decode e.engine e.type e.path = .ok res ∧
        (r.load decode order).1.resources[i]? =
          some { e with resource := some res, loaded := true }) := by
  rw [load_def]
  constructor
  · rw [loadGo_records_length decode order (r, 0) (fun i hi => hvalid.2.2 i hi), hvalid.2.1]
  · intro i e he
    have hi : i ∈ order :=
      validOrder_mem hvalid i (List.getElem?_eq_some_iff.mp he).1
    rcases hall i hi e he with ⟨res, hres⟩
    refine ⟨res, hres, ?_⟩
    have := loadGo_getElem_final decode order (r, 0) hvalid.1 i e he
    rw [this]
    simp [hi, hres]

theorem load_redecodes_witness :
    sampleLoaded.isLoaded = true ∧ ValidOrder [0] sampleLoaded.resources.length ∧
    ((sampleLoaded.load okDecode [0]).2.length = sampleLoaded.resources.length) ∧
    (∃ res, okDecode Engine.pixi ResourceType.texture "b/a.png" = .ok res ∧
      (sampleLoaded.load okDecode [0]).1.resources[0]? =
        some { name := "a", filename := "a.png", type := .texture, engine := .pixi,
               path := "b/a.png", resource := some res, loaded := true }) := by
  have h := load_redecodes sampleLoaded (by decide) okDecode [0] (by decide)
    (fun i hi e he => ⟨7, rfl⟩)
  exact ⟨by decide, by decide, h.1,
    h.2 0
      { name := "a", filename := "a.png", type := .texture, engine := .pixi,
        path := "b/a.png", resource := some 7, loaded := true } (by decide)⟩

/-- **C3**: when an individual decode fails during `load()`: the failed entry
is not marked loaded (it is left untouched), its failure is recorded wrapped
in an error carrying the filename with the original error as cause, the
aggregate promise rejects (with the first rejection in completion order), the
other decodes still complete and update their own entries, and every entry
whose decode succeeded remains retrievable via `get` afterwards. -/
theorem load_failure_isolation {Res Err : Type} (r : Resources Res) (hwf : r.WF)
    (decode : Decode Res Err) (order : List Nat)
    (hvalid : ValidOrder order r.resources.length) (i : Nat) (e : ResourceEntry Res)
    (err : Err) (hi : r.resources[i]? = some e)
    (hfail : decode e.engine e.type e.path = .error err) :
    ((r.load decode order).1.resources[i]? = some e) ∧
    (({ name := e.name, filename := e.filename, path := e.path,
        outcome := .error { message := "Failed to load resource '" ++ e.filename ++ "'",
                            cause := err } } : StepRecord Res Err) ∈
      (r.load decode order).2) ∧
    (∃ le, loadResult (r.load decode order).2 = .error le) ∧
    (∀ (l₁ : List (StepRecord Res Err)) (rec : StepRecord Res Err)
        (l₂ : List (StepRecord Res Err)),
      (r.load decode order).2 = l₁ ++ rec :: l₂ →
      (∀ pr ∈ l₁, ∀ le, pr.outcome ≠ .error le) → ∀ le, rec.outcome = .error le →
      loadResult (r.load decode order).2 = .error le) ∧
    (∀ (j : Nat) (e2 : ResourceEntry Res) (res2 : Res), r.resources[j]? = some e2 →
      decode e2.engine e2.type e2.path = .ok res2 →
      (r.load decode order).1.resources[j]? =
        some { e2 with resource := some res2, loaded := true } ∧
      (r.load decode order).1.get e2.name = .ok res2) := by
  rw [load_def]
  have hio : i ∈ order := validOrder_mem hvalid i (List.getElem?_eq_some_iff.mp hi).1
  have hmemrec := loadGo_record_exists_error decode order (r, 0) hvalid.1 i e err hio hi hfail
  refine ⟨?_, hmemrec, ?_, ?_, ?_⟩
  · rw [loadGo_getElem_final decode order (r, 0) hvalid.1 i e hi]
    simp [hio, hfail]
  · exact loadResult_error_of_mem ⟨_, hmemrec, _, rfl⟩
  · intro l₁ rec l₂ heq hok le hle
    rw [heq]
    exact loadResult_first_error l₁ rec l₂ hok le hle
  · intro j e2 res2 hj hok2
    have hjo : j ∈ order := validOrder_mem hvalid j (List.getElem?_eq_some_iff.mp hj).1
    have hfin : (loadGo decode (r, 0) order).1.1.resources[j]? =
        some { e2 with resource := some res2, loaded := true } := by
      rw [loadGo_getElem_final decode order (r, 0) hvalid.1 j e2 hj]
      simp [hjo, hok2]
    refine ⟨hfin, ?_⟩
    have hnames : (((loadGo decode (r, 0) order).1.1.resources).map (·.name)).Nodup := by
      rw [loadGo_map_name]
      exact hwf.1
    have hfind := findEntry_of_getElem hnames hfin
    unfold Resources.get Resources.findEntry
    rw [show ({ e2 with resource := some res2, loaded := true } : ResourceEntry Res).name = e2.name
      from rfl] at hfind
    rw [hfind]

theorem load_failure_isolation_witness :
    sampleTwo.WF ∧ ValidOrder [0, 1] sampleTwo.resources.length ∧
    sampleTwo.resources[0]? = some
      { name := "a", filename := "a.png", type := .texture, engine := .pixi,
        path := "b/a.png", resource := none, loaded := false } ∧
    mixedDecode Engine.pixi ResourceType.texture "b/a.png" = .error 5 ∧
    ((sampleTwo.load mixedDecode [0, 1]).1.resources[0]? = some
      { name := "a", filename := "a.png", type := .texture, engine := .pixi,
        path := "b/a.png", resource := none, loaded := false }) ∧
    (∃ le, loadResult ((sampleTwo.load mixedDecode [0, 1]).2) = .error le) ∧
    ((sampleTwo.load mixedDecode [0, 1]).1.get "m" = .ok 9) := by
  have h := load_failure_isolation sampleTwo (by decide) mixedDecode [0, 1] (by decide) 0
    { name := "a", filename := "a.png", type := .texture, engine := .pixi,
      path := "b/a.png", resource := none, loaded := false } 5 (by decide) rfl
  have h5 := h.2.2.2.2 1
    { name := "m", filename := "m.glb", type := .model, engine := .three,
      path := "b/m.glb", resource := none, loaded := false } 9 (by decide) rfl
  exact ⟨by decide, by decide, by decide, rfl, h.1, h.2.2.1, h5.2⟩

/-- **C9**: when a declared entry's decode fails during `load()`, the lazy
promises registered under that name never settle during the run: the one-shot
callbacks are fired only on successful decode (the model's promises have no
rejection channel at all), the failure path fires nothing, and the callbacks
stay registered afterwards. -/
theorem load_failure_lazy_unsettled {Res Err : Type} (r : Resources Res) (hwf : r.WF)
    (decode : Decode Res Err) (order : List Nat)
    (hvalid : ValidOrder order r.resources.length) (i : Nat) (e : ResourceEntry Res)
    (err : Err) (hi : r.resources[i]? = some e)
    (hfail : decode e.engine e.type e.path = .error err) :
    (∀ id ∈ (eventsLookup r.events e.name).getD [], ∀ v : Res,
        (id, v) ∉ flatFired (r.load decode order).2) ∧
    (eventsLookup (r.load decode order).1.events e.name = eventsLookup r.events e.name) := by
  rw [load_def]
  constructor
  · intro id hid v
    cases hlk : eventsLookup r.events e.name with
    | none => rw [hlk] at hid; simp at hid
    | some l1 =>
        rw [hlk] at hid
        simp only [Option.getD_some] at hid
        refine flatFired_not_mem (fun rec hrec s ho hids => ?_) v
        rcases loadGo_records_char decode order (r, 0) hvalid.1 hwf.1 hwf.2.1 rec hrec with
          ⟨i', hi', e', he', hn, _, _, hok, _⟩
        rcases hok s ho with ⟨hfired, hdec⟩
        by_cases hsame : e'.name = e.name
        · -- the only entry with this name is the failed one
          have : e' = e :=
            eq_of_name_mem_nodup hwf.1 (List.getElem?_mem he') (List.getElem?_mem hi) hsame
          subst this
          rw [hfail] at hdec
          cases hdec
        · -- listeners under a different key cannot contain this id
          rw [hfired] at hids
          cases hlk' : eventsLookup r.events e'.name with
          | none => rw [hlk'] at hids; simp at hids
          | some l2 =>
              rw [hlk'] at hids
              simp only [Option.getD_some] at hids
              refine disjoint_of_flatMap_nodup hwf.2.2.1 (eventsLookup_mem hlk)
                (eventsLookup_mem hlk') (fun hh => ?_) hid hids
              exact hsame (by simpa using hh.symm)
  · refine loadGo_events_preserved decode e.name order (r, 0) (fun j hj ej hej hejn res hres => ?_)
    have : ej = e :=
      eq_of_name_mem_nodup hwf.1 (List.getElem?_mem hej) (List.getElem?_mem hi) hejn
    subst this
    rw [hfail] at hres
    cases hres

theorem load_failure_lazy_unsettled_witness :
    sampleSubscribed.WF ∧ ValidOrder [0] sampleSubscribed.resources.length ∧
    sampleSubscribed.resources[0]? = some
      { name := "a", filename := "a.png", type := .texture, engine := .pixi,
        path := "b/a.png", resource := none, loaded := false } ∧
    (eventsLookup sampleSubscribed.events "a").getD [] = [0] ∧
    (∀ v : Nat, (0, v) ∉ flatFired ((sampleSubscribed.load failDecode [0]).2)) ∧
    (eventsLookup (sampleSubscribed.load failDecode [0]).1.events "a" =
      eventsLookup sampleSubscribed.events "a") := by
  have h := load_failure_lazy_unsettled sampleSubscribed (by decide) failDecode [0] (by decide) 0
    { name := "a", filename := "a.png", type := .texture, engine := .pixi,
      path := "b/a.png", resource := none, loaded := false } 0 (by decide) rfl
  exact ⟨by decide, by decide, by decide, by decide, h.1 0 (by decide), h.2⟩

/-- **C6** (amended): every progress callback of a run receives a snapshot
`{total, loaded-so-far, percentage, current: {name, resource}}` whose `total`
is the snapshot size, whose `loaded` counts the entries completed so far
(`1, 2, …` across the callbacks of the run), and whose percentage is computed
from those counts; the percentages are monotonically non-decreasing across
the sequence of callbacks; and when the registry is nonempty and every decode
succeeds, the final callback reports exactly `100`.  (A failed decode fires
no progress callback, so a run with a failure settles without any callback
reporting `100` — see the counterexample.) -/
theorem load_progress_spec {Res Err : Type} (r : Resources Res) (decode : Decode Res Err)
    (order : List Nat) (hvalid : ValidOrder order r.resources.length) :
    (∀ rec ∈ (r.load decode order).2, ∀ s, rec.outcome = .ok s →
        s.progress.total = r.resources.length ∧
        s.progress.currentName = rec.name ∧
        s.progress.currentResource = s.resource ∧
        s.progress.percentage =
          (if 0 < s.progress.total then
            ((s.progress.loaded : ℚ) / (s.progress.total : ℚ)) * 100 else 100)) ∧
    ((progressLog (r.load decode order).2).map (·.loaded) =
        List.range' 1 (progressLog (r.load decode order).2).length) ∧
    (List.Chain' (fun a b => a.percentage ≤ b.percentage)
        (progressLog (r.load decode order).2)) ∧
    (0 < r.resources.length → AllOk decode r order →
        ((progressLog (r.load decode order).2).map (·.percentage)).getLast? = some 100) := by
  obtain ⟨m, hm⟩ := progressLog_loaded decode order (r, 0)
  have hshape := progressLog_snapshot_shape decode order (r, 0)
  have hmlen : m = (progressLog (loadGo decode (r, 0) order).2).length := by
    have := congrArg List.length hm
    simpa using this.symm
  have hloaded : (progressLog (loadGo decode (r, 0) order).2).map (·.loaded) =
      List.range' 1 (progressLog (loadGo decode (r, 0) order).2).length := by
    rw [← hmlen]
    simpa using hm
  have hpct : ∀ p ∈ progressLog (loadGo decode (r, 0) order).2,
      p.percentage = (fun l : Nat => if 0 < r.resources.length then
        ((l : ℚ) / (r.resources.length : ℚ)) * 100 else 100) p.loaded := by
    intro p hp
    rcases mem_progressLog.mp hp with ⟨rec, hrec, s, ho, hsp⟩
    rcases hshape rec hrec s ho with ⟨ht, _, _, hperc⟩
    rw [← hsp]
    simp only
    rw [hperc, ht]
  have hmono : ∀ a b : Nat, a ≤ b →
      (fun l : Nat => if 0 < r.resources.length then
        ((l : ℚ) / (r.resources.length : ℚ)) * 100 else 100) a ≤
      (fun l : Nat => if 0 < r.resources.length then
        ((l : ℚ) / (r.resources.length : ℚ)) * 100 else 100) b := by
    intro a b hab
    by_cases hN : 0 < r.resources.length
    · simp only [hN, if_true]
      have hc : (0 : ℚ) < (r.resources.length : ℚ) := by exact_mod_cast hN
      have hab2 : (a : ℚ) ≤ (b : ℚ) := by exact_mod_cast hab
      exact mul_le_mul_of_nonneg_right ((div_le_div_right hc).mpr hab2) (by norm_num)
    · simp [hN]
  have hmapperc : (progressLog (loadGo decode (r, 0) order).2).map (·.percentage) =
      (List.range' 1 (progressLog (loadGo decode (r, 0) order).2).length).map
        (fun l : Nat => if 0 < r.resources.length then
          ((l : ℚ) / (r.resources.length : ℚ)) * 100 else 100) := by
    rw [← hloaded, List.map_map]
    exact List.map_congr_left hpct
  refine ⟨hshape, hloaded, ?_, ?_⟩
  · show List.Chain' (fun a b => a.percentage ≤ b.percentage)
      (progressLog (loadGo decode (r, 0) order).2)
    have hchain : List.Chain' (· ≤ ·)
        ((progressLog (loadGo decode (r, 0) order).2).map (·.percentage)) := by
      rw [hmapperc]
      exact chain_le_map_range' _ hmono _ _
    exact (List.chain'_map (R := (· ≤ ·)) (fun p : LoadingProgress Res => p.percentage)).mp hchain
  · intro hN hall
    show ((progressLog (loadGo decode (r, 0) order).2).map (·.percentage)).getLast? = some 100
    have hallok := loadGo_all_ok decode order (r, 0) (fun i hi e he => hall i hi e he)
    have hlen : (progressLog (loadGo decode (r, 0) order).2).length = r.resources.length := by
      rw [progressLog_length_all_ok hallok,
        loadGo_records_length decode order (r, 0) (fun i hi => hvalid.2.2 i hi), hvalid.2.1]
    rw [hmapperc, hlen]
    obtain ⟨n, hn⟩ : ∃ n, r.resources.length = n + 1 :=
      ⟨r.resources.length - 1, by omega⟩
    conv_lhs => rw [hn, List.range'_1_concat, List.map_append, List.map_cons, List.map_nil]
    rw [List.getLast?_concat]
    simp only [Nat.succ_pos, if_true]
    push_cast
    rw [add_comm (1 : ℚ) (n : ℚ), div_self (ne_of_gt (by positivity)), one_mul]

/-- **C6** counterexample to the claim as stated: a one-entry registry whose
decode fails.  The run settles every declared entry (one record per entry),
yet no progress callback of the run ever reports `100` — the progress
sequence is empty. -/
theorem load_progress_settle_counterexample :
    ((sampleRegistry.load failDecode [0]).2.length = sampleRegistry.resources.length) ∧
    (progressLog ((sampleRegistry.load failDecode [0]).2) = []) ∧
    (100 : ℚ) ∉ ((progressLog ((sampleRegistry.load failDecode [0]).2)).map (·.percentage)) :=
  ⟨rfl, rfl, List.not_mem_nil _⟩

theorem load_progress_spec_witness :
    ValidOrder [0] sampleRegistry.resources.length ∧
    0 < sampleRegistry.resources.length ∧
    ((progressLog ((sampleRegistry.load okDecode [0]).2)).map (·.loaded) =
      List.range' 1 ((progressLog ((sampleRegistry.load okDecode [0]).2)).length)) ∧
    (List.Chain' (fun a b => a.percentage ≤ b.percentage)
      (progressLog ((sampleRegistry.load okDecode [0]).2))) ∧
    (((progressLog ((sampleRegistry.load okDecode [0]).2)).map (·.percentage)).getLast? =
      some 100) := by
  have h := load_progress_spec sampleRegistry okDecode [0] (by decide)
  exact ⟨by decide, by decide, h.2.1, h.2.2.1,
    h.2.2.2 (by decide) (fun i hi e he => ⟨7, rfl⟩)⟩

/-- **C2**: `getLazy` throws synchronously with the not-found message for an
undeclared name; on a loaded entry it returns an immediately-resolved promise
wrapping the stored resource and leaves the registry untouched (no re-decode —
decodes happen only inside `load`); and on a declared-but-unloaded entry `k`
concurrent calls receive `k` distinct pending promises, all of which are
resolved, each exactly once, with the single decode result of that entry at
the very completion step that marks the entry loaded, after which the
per-name callback list is cleared. -/
theorem getLazy_spec {Res Err : Type} (r : Resources Res) (hwf : r.WF) (nm : String) :
    (r.findEntry nm = none → r.getLazy nm = .error (notFoundMsg nm)) ∧
    (∀ (e : ResourceEntry Res) (res : Res), r.findEntry nm = some e → e.loaded = true →
      e.resource = some res → r.getLazy nm = .ok (.resolved res, r)) ∧
    (∀ (k i : Nat) (e : ResourceEntry Res), r.resources[i]? = some e → e.name = nm →
      (e.loaded = false ∨ e.resource = none) →
      ((getLazyN r nm k).1.Nodup ∧ (getLazyN r nm k).1.length = k) ∧
      (∀ (decode : Decode Res Err) (order : List Nat) (res : Res),
        ValidOrder order r.resources.length →
        decode e.engine e.type e.path = .ok res →
        (∃ s : StepSuccess Res,
          ({ name := nm, filename := e.filename, path := e.path, outcome := .ok s }
            : StepRecord Res Err) ∈ ((getLazyN r nm k).2.load decode order).2 ∧
          s.resource = res ∧ ∀ id ∈ (getLazyN r nm k).1, id ∈ s.firedIds) ∧
        (∀ id ∈ (getLazyN r nm k).1,
          (flatFired ((getLazyN r nm k).2.load decode order).2).countP
            (fun pr => pr.1 == id) = 1 ∧
          (∀ v : Res, (id, v) ∈ flatFired ((getLazyN r nm k).2.load decode order).2 →
            v = res)) ∧
        (eventsLookup ((getLazyN r nm k).2.load decode order).1.events nm = none))) := by
  refine ⟨fun h => ?_, fun e res hf hl hr => ?_, fun k i e hi hname hnl => ?_⟩
  · unfold Resources.getLazy
    rw [h]
  · obtain ⟨nme, fn, ty, eng, pa, rsc, ld⟩ := e
    simp only at hl hr
    subst hl
    subst hr
    unfold Resources.getLazy
    rw [hf]
  · have hfind : r.findEntry nm = some e := by
      unfold Resources.findEntry
      rw [← hname]
      exact findEntry_of_getElem hwf.1 hi
    rcases getLazyN_char k r nm e hfind hnl with ⟨ha, hb, _, _, he', hf'⟩
    rcases getLazyN_wf k r nm e hfind hnl hwf.2.1 hwf.2.2.2 with ⟨hkeys', hbound'⟩
    refine ⟨⟨by rw [ha]; exact List.nodup_range' _ _, by simp [ha]⟩, ?_⟩
    intro decode order res hvalid hdec
    rw [load_def]
    have hb2 : (getLazyN r nm k).2.resources = r.resources := hb
    have hnames' : (((getLazyN r nm k).2.resources).map (·.name)).Nodup := by
      rw [hb2]
      exact hwf.1
    have hi' : (getLazyN r nm k).2.resources[i]? = some e := by
      rw [hb2]
      exact hi
    have hio : i ∈ order := validOrder_mem hvalid i (List.getElem?_eq_some_iff.mp hi).1
    have hlookup : (eventsLookup (getLazyN r nm k).2.events nm).getD [] =
        (eventsLookup r.events nm).getD [] ++ List.range' r.nextId k := he'
    -- membership of each fresh id in the fired list of the entry's completion
    have hidmem : ∀ id ∈ (getLazyN r nm k).1,
        id ∈ (eventsLookup (getLazyN r nm k).2.events nm).getD [] := by
      intro id hid
      rw [hlookup]
      rw [ha] at hid
      exact List.mem_append_right _ hid
    -- bounds for the fresh ids
    have hidge : ∀ id ∈ (getLazyN r nm k).1, r.nextId ≤ id := by
      intro id hid
      rw [ha] at hid
      exact (List.mem_range'_1.mp hid).1
    -- ids stored under other names are below the fresh ids
    have hother : ∀ (id : Nat), r.nextId ≤ id → ∀ (nm' : String), nm' ≠ nm →
        id ∉ (eventsLookup (getLazyN r nm k).2.events nm').getD [] := by
      intro id hge nm' hne hmem
      rw [hf' nm' hne] at hmem
      cases hlk : eventsLookup r.events nm' with
      | none => rw [hlk] at hmem; simp at hmem
      | some l2 =>
          rw [hlk] at hmem
          simp only [Option.getD_some] at hmem
          have := hwf.2.2.2 _ (eventsLookup_mem hlk) id hmem
          omega
    -- ids previously stored under `nm` are also below the fresh ids
    have holdlt : ∀ id ∈ (eventsLookup r.events nm).getD [], id < r.nextId := by
      intro id hid
      cases hlk : eventsLookup r.events nm with
      | none => rw [hlk] at hid; simp at hid
      | some l0 =>
          rw [hlk] at hid
          simp only [Option.getD_some] at hid
          exact hwf.2.2.2 _ (eventsLookup_mem hlk) id hid
    obtain ⟨prog, hmem⟩ := loadGo_record_exists_ok decode order ((getLazyN r nm k).2, 0)
      hvalid.1 hnames' i e res hio hi' hdec
    have hrecnodup := loadGo_records_names_nodup decode order ((getLazyN r nm k).2, 0)
      hvalid.1 hnames' hkeys'
    -- characterization of an arbitrary success record containing a fresh id
    have hchar : ∀ id ∈ (getLazyN r nm k).1,
        ∀ rec ∈ (loadGo decode ((getLazyN r nm k).2, 0) order).2,
        ∀ s : StepSuccess Res, rec.outcome = .ok s → id ∈ s.firedIds →
          rec.name = nm ∧ s.firedIds.count id = 1 ∧ s.resource = res := by
      intro id hid rec hrec s ho hids
      rcases loadGo_records_char decode order ((getLazyN r nm k).2, 0) hvalid.1 hnames' hkeys'
        rec hrec with ⟨i'', _, e'', he'', hn'', _, _, hok'', _⟩
      rcases hok'' s ho with ⟨hfired'', hdec''⟩
      by_cases hsame : e''.name = nm
      · have hee : e'' = e := by
          refine eq_of_name_mem_nodup hwf.1 ?_ (List.getElem?_mem hi) (by rw [hsame, hname])
          rw [← hb2]
          exact List.getElem?_mem he''
        subst hee
        refine ⟨hn''.trans hsame, ?_, ?_⟩
        · rw [hfired'', hsame, hlookup, List.count_append]
          have h0 : ((eventsLookup r.events nm).getD []).count id = 0 :=
            List.count_eq_zero_of_not_mem (fun hmm => by
              have := holdlt id hmm
              have := hidge id hid
              omega)
          have h1 : (List.range' r.nextId k).count id = 1 :=
            List.count_eq_one_of_mem (List.nodup_range' _ _) (by rw [← ha]; exact hid)
          omega
        · rw [hdec] at hdec''
          injection hdec'' with hh
          exact hh.symm
      · exfalso
        rw [hfired''] at hids
        exact hother id (hidge id hid) e''.name hsame hids
    refine ⟨?_, ?_, ?_⟩
    · refine ⟨{ resource := res,
                firedIds := (eventsLookup (getLazyN r nm k).2.events nm).getD [],
                progress := prog },
        ?_, rfl, fun id hid => hidmem id hid⟩
      rw [hname] at hmem
      exact hmem
    · intro id hid
      constructor
      · refine flatFired_countP_unique nm id _ hrecnodup
          (fun rec hrec s ho hids => ⟨(hchar id hid rec hrec s ho hids).1,
            (hchar id hid rec hrec s ho hids).2.1⟩) ?_
        exact ⟨_, hmem, _, rfl, by rw [hname]; exact hidmem id hid⟩
      · exact flatFired_value_unique
          (fun rec hrec s ho hids => (hchar id hid rec hrec s ho hids).2.2)
    · have hcl := loadGo_events_cleared decode order ((getLazyN r nm k).2, 0) hvalid.1 hnames'
        hkeys' i e res hio hi' hdec
      rw [hname] at hcl
      exact hcl

theorem getLazy_spec_witness :
    sampleRegistry.WF ∧
    sampleRegistry.getLazy "zzz" = .error (notFoundMsg "zzz") ∧
    sampleLoaded.getLazy "a" = .ok (.resolved 7, sampleLoaded) ∧
    ((getLazyN sampleRegistry "a" 2).1.Nodup ∧ (getLazyN sampleRegistry "a" 2).1.length = 2) ∧
    ((flatFired (((getLazyN sampleRegistry "a" 2).2.load okDecode [0]).2)).countP
      (fun pr => pr.1 == 0) = 1) ∧
    (∀ v : Nat, (0, v) ∈ flatFired (((getLazyN sampleRegistry "a" 2).2.load okDecode [0]).2) →
      v = 7) ∧
    (eventsLookup ((getLazyN sampleRegistry "a" 2).2.load okDecode [0]).1.events "a" = none) := by
  have hz := @getLazy_spec Nat Nat sampleRegistry (by decide) "zzz"
  have hl := @getLazy_spec Nat Nat sampleLoaded (by decide) "a"
  have h := @getLazy_spec Nat Nat sampleRegistry (by decide) "a"
  have hc := h.2.2 2 0
    { name := "a", filename := "a.png", type := .texture, engine := .pixi,
      path := "b/a.png", resource := none, loaded := false } (by decide) rfl (Or.inl rfl)
  have hmain := hc.2 okDecode [0] 7 (by decide) rfl
  refine ⟨by decide, hz.1 (by decide), ?_, hc.1, (hmain.2.1 0 (by decide)).1,
    (hmain.2.1 0 (by decide)).2, hmain.2.2⟩
  exact hl.2.1
    { name := "a", filename := "a.png", type := .texture, engine := .pixi,
      path := "b/a.png", resource := some 7, loaded := true } 7 (by decide) rfl rfl

end Thrixi
